import Mathlib

/-!
# Verification of the chess rules engine (`pieces.py`)

This file is a shallow embedding of the piece-movement, legality-filter and
evaluation code of the repository's `pieces.py`, together with proofs of the
spec's testable properties.

The board class itself is not part of the source; its operations
(`get_cell`, `set_cell`, `cell_is_valid_and_empty`, `piece_can_enter_cell`,
`piece_can_hit_on_cell`, `is_king_check_cached`) are the external Board
Adapter and are modelled from the spec (§6 "External interfaces",
§4.2 step 2).  The check detector `is_king_check_cached` is kept abstract:
every theorem is parametric in an arbitrary oracle `chk`, exactly as the
piece code treats it as a black box.

Numeric scores are modelled with `ℚ` (the spec speaks of the exact values
1, 3, 5, 9, 999999, 12, 0.91, 0.94, 0.97, 1.0).
-/

namespace Chess

/-- A cell is a (row, column) pair of integers; off-board coordinates
(outside `[0,7]`) can legitimately appear as intermediate values of the
movement formulas and are modelled directly. -/
abbrev Cell := Int × Int

/-- Pieces are identified by an id; the board maps cells to ids so that a
piece's identity (needed for the tracked-position bookkeeping of
`set_cell`) is preserved. -/
abbrev PieceId := Nat

/-- The class of a piece.  `other` models an object that is an instance of
none of the six concrete piece classes (the `isinstance` chain of
`Piece.evaluate` falls through for it, and it has no
`get_reachable_cells` method). -/
inductive Kind
  | pawn | rook | knight | bishop | queen | king | other
deriving DecidableEq, Repr

/-- The immutable data of a piece: its colour (`white = true` for white)
and its class. -/
structure Pc where
  white : Bool
  kind : Kind
deriving DecidableEq, Repr

/-- The mutable game state: board occupancy (`occ`), each piece's tracked
position (`pos`, the Python attribute `self.cell`, `none` when unset) and
each piece's immutable colour/class (`info`). -/
@[ext]
structure BoardSt where
  occ : Cell → Option PieceId
  pos : PieceId → Option Cell
  info : PieceId → Pc

/-- Bounds check for a cell: both coordinates in `[0,7]`. -/
def onBoard (c : Cell) : Bool :=
  (0 ≤ c.1 && c.1 ≤ 7) && (0 ≤ c.2 && c.2 ≤ 7)

/-- Modelled from the spec: `get_occupant(cell) -> Piece | empty` —
query occupancy, no mutation (`board.get_cell`). -/
def BoardSt.get_cell (b : BoardSt) (c : Cell) : Option PieceId :=
  b.occ c

/-- The colour/class record of the occupant of a cell, if any. -/
def BoardSt.pcAt (b : BoardSt) (c : Cell) : Option Pc :=
  (b.occ c).map b.info

/-- Modelled from the spec: `is_empty_and_on_board(cell)` — bounds check
plus emptiness (`board.cell_is_valid_and_empty`). -/
def BoardSt.cell_is_valid_and_empty (b : BoardSt) (c : Cell) : Bool :=
  onBoard c && (b.occ c).isNone

/-- `true` when the cell holds an enemy of a piece of colour `white`. -/
def BoardSt.enemyAt (b : BoardSt) (white : Bool) (c : Cell) : Bool :=
  match b.pcAt c with
  | none => false
  | some q => q.white != white

/-- Modelled from the spec: `is_enterable(mover, cell)` — on-board and
(empty or holds an enemy of the mover) (`Piece.can_enter_cell`). -/
def BoardSt.piece_can_enter_cell (b : BoardSt) (white : Bool) (c : Cell) : Bool :=
  onBoard c && ((b.occ c).isNone || b.enemyAt white c)

/-- Modelled from the spec: `is_capturable(mover, cell)` — on-board and
holds an enemy of the mover (`Piece.can_hit_on_cell`). -/
def BoardSt.piece_can_hit_on_cell (b : BoardSt) (white : Bool) (c : Cell) : Bool :=
  onBoard c && b.enemyAt white c

/-- Modelled from the spec: `set_occupant(cell, piece_or_empty)` — place a
piece (or clear) at a cell; placing also updates the placed piece's
tracked position and vacates the cell it previously occupied (§4.2:
"this also vacates O implicitly because the board model stores one piece
per cell and the mover's tracked position is updated"). -/
def BoardSt.set_cell (b : BoardSt) (c : Cell) (p : Option PieceId) : BoardSt :=
  match p with
  | none =>
    { b with occ := fun x => if x = c then none else b.occ x }
  | some q =>
    { occ := fun x => if x = c then some q else if b.occ x = some q then none else b.occ x
      pos := fun r => if r = q then some c else b.pos r
      info := b.info }

/-- Board well-formedness: every occupied cell is the tracked position of
its occupant. -/
def BoardSt.Consistent (b : BoardSt) : Prop :=
  ∀ x p, b.occ x = some p → b.pos p = some x

/-! ## Movement geometry (§4.1) -/

/-- The shared ray-walking loop body of `Rook`, `Bishop` and
`Queen.get_reachable_cells`: walk the candidate cells of one direction in
order; an on-board empty cell is appended and the walk continues; a cell
the mover can hit is appended and the walk stops (`break`); any other
cell stops the walk without being appended. -/
def rayWalk (b : BoardSt) (white : Bool) : List Cell → List Cell
  | [] => []
  | c :: rest =>
    if b.cell_is_valid_and_empty c then c :: rayWalk b white rest
    else if b.piece_can_hit_on_cell white c then [c]
    else []

/-- The cell reached from `p` after `k` steps in direction `d`. -/
def cellAt (p d : Cell) (k : Nat) : Cell :=
  (p.1 + d.1 * k, p.2 + d.2 * k)

/-- The `n` consecutive cells from `p` in direction `d` (distance 1 to
`n`), the candidate sequence of one ray loop. -/
def lineCells (p d : Cell) (n : Nat) : List Cell :=
  (List.range n).map fun i => cellAt p d (i + 1)

/-- Number of loop iterations of the ray loop for direction `d` from `p`:
`range(row+1, 8)` for upward rows, `reversed(range(0, row))` for downward
rows, and the analogous column ranges for the purely horizontal rays (the
diagonal loops of the source iterate on the row range). -/
def rayLen (p d : Cell) : Nat :=
  if d.1 = 1 then (7 - p.1).toNat
  else if d.1 = -1 then p.1.toNat
  else if d.2 = 1 then (7 - p.2).toNat
  else p.2.toNat

/-- One full ray of a sliding piece in direction `d`. -/
def ray (b : BoardSt) (white : Bool) (p d : Cell) : List Cell :=
  rayWalk b white (lineCells p d (rayLen p d))

/-- `Rook.get_reachable_cells`: the four orthogonal rays, in source order
(up, down, left, right). -/
def Rook.get_reachable_cells (b : BoardSt) (white : Bool) (p : Cell) : List Cell :=
  ray b white p (1, 0) ++ ray b white p (-1, 0) ++ ray b white p (0, -1) ++ ray b white p (0, 1)

/-- `Bishop.get_reachable_cells`: the four diagonal rays, in source order
(fw-rt, bw-rt, fw-li, bw-li). -/
def Bishop.get_reachable_cells (b : BoardSt) (white : Bool) (p : Cell) : List Cell :=
  ray b white p (1, 1) ++ ray b white p (-1, 1) ++ ray b white p (1, -1) ++ ray b white p (-1, -1)

/-- `Queen.get_reachable_cells`: the four orthogonal rays in rook order
followed by the four diagonal rays in bishop order (the source duplicates
the same eight loops textually). -/
def Queen.get_reachable_cells (b : BoardSt) (white : Bool) (p : Cell) : List Cell :=
  ray b white p (1, 0) ++ ray b white p (-1, 0) ++ ray b white p (0, -1) ++ ray b white p (0, 1)
    ++ ray b white p (1, 1) ++ ray b white p (-1, 1) ++ ray b white p (1, -1)
    ++ ray b white p (-1, -1)

/-- `Pawn.get_reachable_cells`: one cell forward if on-board and empty,
nested double step from the home rank (target row hard-coded to 3 resp. 4
in the source), then the two diagonal captures (col+1 first). -/
def Pawn.get_reachable_cells (b : BoardSt) (white : Bool) (p : Cell) : List Cell :=
  let row := p.1
  let col := p.2
  if white then
    (if b.cell_is_valid_and_empty (row + 1, col) then
      (row + 1, col) ::
        (if row = 1 && b.cell_is_valid_and_empty (3, col) then [((3 : Int), col)] else [])
    else [])
    ++ (if b.piece_can_hit_on_cell white (row + 1, col + 1) then [(row + 1, col + 1)] else [])
    ++ (if b.piece_can_hit_on_cell white (row + 1, col - 1) then [(row + 1, col - 1)] else [])
  else
    (if b.cell_is_valid_and_empty (row - 1, col) then
      (row - 1, col) ::
        (if row = 6 && b.cell_is_valid_and_empty (4, col) then [((4 : Int), col)] else [])
    else [])
    ++ (if b.piece_can_hit_on_cell white (row - 1, col + 1) then [(row - 1, col + 1)] else [])
    ++ (if b.piece_can_hit_on_cell white (row - 1, col - 1) then [(row - 1, col - 1)] else [])

/-- `Knight.get_reachable_cells`: the eight fixed L-offsets tested with
`can_enter_cell`, in source order. -/
def Knight.get_reachable_cells (b : BoardSt) (white : Bool) (p : Cell) : List Cell :=
  let row := p.1
  let col := p.2
  (if b.piece_can_enter_cell white (row - 2, col + 1) then [(row - 2, col + 1)] else [])
    ++ (if b.piece_can_enter_cell white (row - 2, col - 1) then [(row - 2, col - 1)] else [])
    ++ (if b.piece_can_enter_cell white (row + 2, col + 1) then [(row + 2, col + 1)] else [])
    ++ (if b.piece_can_enter_cell white (row + 2, col - 1) then [(row + 2, col - 1)] else [])
    ++ (if b.piece_can_enter_cell white (row + 1, col - 2) then [(row + 1, col - 2)] else [])
    ++ (if b.piece_can_enter_cell white (row - 1, col - 2) then [(row - 1, col - 2)] else [])
    ++ (if b.piece_can_enter_cell white (row + 1, col + 2) then [(row + 1, col + 2)] else [])
    ++ (if b.piece_can_enter_cell white (row - 1, col + 2) then [(row - 1, col + 2)] else [])

/-- The iteration order of the king's double loop over
`i_r ∈ [-1,0,1] × i_c ∈ [-1,0,1]` with `(0,0)` skipped. -/
def kingOffsets : List Cell :=
  [(-1, -1), (-1, 0), (-1, 1), (0, -1), (0, 1), (1, -1), (1, 0), (1, 1)]

/-- `King.get_reachable_cells`: the eight unit offsets tested with
`can_enter_cell`, in the double-loop order. -/
def King.get_reachable_cells (b : BoardSt) (white : Bool) (p : Cell) : List Cell :=
  (kingOffsets.map fun o => (p.1 + o.1, p.2 + o.2)).filter (b.piece_can_enter_cell white)

/-- Kind dispatch of `get_reachable_cells`.  `none` models a run-time
failure: either the unconditional unpacking `row, col = self.cell` of an
unset position (a `TypeError`), or a piece of an unrecognised class,
which has no `get_reachable_cells` method at all. -/
def Piece.get_reachable_cells (b : BoardSt) (self : PieceId) : Option (List Cell) :=
  match b.pos self with
  | none => none
  | some p =>
    match (b.info self).kind with
    | .pawn => some (Pawn.get_reachable_cells b (b.info self).white p)
    | .rook => some (Rook.get_reachable_cells b (b.info self).white p)
    | .knight => some (Knight.get_reachable_cells b (b.info self).white p)
    | .bishop => some (Bishop.get_reachable_cells b (b.info self).white p)
    | .queen => some (Queen.get_reachable_cells b (b.info self).white p)
    | .king => some (King.get_reachable_cells b (b.info self).white p)
    | .other => none

/-! ## Legality filter (§4.2, `Piece.get_valid_cells`) -/

/-- The loop body of `Piece.get_valid_cells`: for each reachable cell,
remember the occupant, place the mover there, query the (abstract) check
oracle `chk` for the mover's colour, keep the cell if there is no check,
and restore the previous configuration before the next candidate.  The
final board state is returned alongside the list. -/
def validLoop (chk : BoardSt → Bool → Bool) (self : PieceId) (white : Bool) (og : Cell) :
    List Cell → BoardSt → List Cell × BoardSt
  | [], b => ([], b)
  | c :: rest, b =>
    let enemy := b.get_cell c
    let b1 := b.set_cell c (some self)
    let noCheck := !(chk b1 white)
    let b2 := (b1.set_cell og (some self)).set_cell c enemy
    let r := validLoop chk self white og rest b2
    (if noCheck then c :: r.1 else r.1, r.2)

/-- `Piece.get_valid_cells`: read the mover's current cell, enumerate the
reachable cells, and filter them through the simulate-and-restore loop.
`chk` is the board's `is_king_check_cached` oracle (modelled from the
spec as an arbitrary function of the board state and a colour).  `none`
models the run-time failure on an unset position or unrecognised class. -/
def Piece.get_valid_cells (chk : BoardSt → Bool → Bool) (b : BoardSt) (self : PieceId) :
    Option (List Cell × BoardSt) :=
  match b.pos self with
  | none => none
  | some og =>
    match Piece.get_reachable_cells b self with
    | none => none
    | some rc => some (validLoop chk self (b.info self).white og rc b)

/-! ## Evaluation heuristic (§4.3, `Piece.evaluate`) -/

/-- The base material value assigned by the `isinstance` chain of
`Piece.evaluate` (the `other` row corresponds to the early `return 0`). -/
def base_pts : Kind → ℚ
  | .pawn => 1
  | .knight => 3
  | .bishop => 3
  | .rook => 5
  | .queen => 9
  | .king => 999999
  | .other => 0

/-- The `enemy_base_pts` assigned inside the threat loop of
`Piece.evaluate` to the occupant of a valid destination cell (`0` when the
cell is empty; a king counts `12`; an unrecognised class counts `0`). -/
def enemy_base_pts : Option Pc → ℚ
  | none => 0
  | some q =>
    match q.kind with
    | .pawn => 1
    | .knight => 3
    | .bishop => 3
    | .rook => 5
    | .queen => 9
    | .king => 12
    | .other => 0

/-- The centrality multiplier of `Piece.evaluate`: `1` for kings;
otherwise the edge/ring cascade.  Both the explicit centre branch of the
source and its fall-through leave the factor at its initial value `1`,
so they are collapsed into the final `else`. -/
def position_factor (isKing : Bool) (row col : Int) : ℚ :=
  if isKing then 1
  else if row = 0 ∨ row = 7 ∨ col = 0 ∨ col = 7 then 91 / 100
  else if row = 1 ∨ row = 6 ∨ col = 1 ∨ col = 6 then 94 / 100
  else if row = 2 ∨ row = 5 ∨ col = 2 ∨ col = 5 then 97 / 100
  else 1

/-- `Piece.evaluate`: base points by class (an unrecognised class returns
`0` immediately, before the `ai_mode` block); in `ai_mode` the threat
term adds a tenth of `enemy_base_pts` for each valid destination cell,
looked up on the board state left by `get_valid_cells`, and the running
score is multiplied by the centrality factor of the piece's current
position.  `none` models the run-time failure on an unset position. -/
def Piece.evaluate (chk : BoardSt → Bool → Bool) (b : BoardSt) (self : PieceId)
    (ai_mode : Bool) : Option ℚ :=
  if (b.info self).kind = .other then some 0
  else
    let base := base_pts (b.info self).kind
    if ai_mode then
      match Piece.get_valid_cells chk b self with
      | none => none
      | some (vc, b1) =>
        let score := base + (vc.map fun c => enemy_base_pts (b1.pcAt c) / 10).sum
        match b1.pos self with
        | none => none
        | some p =>
          some (score * position_factor ((b.info self).kind = .king) p.1 p.2)
    else some base

/-! ## Spec-side definitions (used to state the claims) -/

/-- The colour-dependent forward direction of a pawn (spec §4.1). -/
def fwdSign (white : Bool) : Int :=
  if white then 1 else -1

/-- The home rank of a pawn (spec: row 1 for white, row 6 for black). -/
def homeRank (white : Bool) : Int :=
  if white then 1 else 6

/-- The eight knight offsets, in the order the source tests them. -/
def knightOffsets : List Cell :=
  [(-2, 1), (-2, -1), (2, 1), (2, -1), (1, -2), (-1, -2), (1, 2), (-1, 2)]

/-- The four rook directions (up, down, left, right, in source order). -/
def rookDirs : List Cell :=
  [(1, 0), (-1, 0), (0, -1), (0, 1)]

/-- The four bishop directions (fw-rt, bw-rt, fw-li, bw-li, in source
order). -/
def bishopDirs : List Cell :=
  [(1, 1), (-1, 1), (1, -1), (-1, -1)]

/-- The eight queen directions. -/
def queenDirs : List Cell :=
  [(1, 0), (-1, 0), (0, -1), (0, 1), (1, 1), (-1, 1), (1, -1), (-1, -1)]

/-- The spec's ray condition for the cell at distance `k ≥ 1` in
direction `d`: the cell is on-board, every strictly closer cell of the
ray is on-board and empty, and the cell itself is empty or
enemy-occupied.  A sliding piece reaches exactly the cells satisfying
this. -/
def rayCond (b : BoardSt) (white : Bool) (p d : Cell) (k : Nat) : Prop :=
  onBoard (cellAt p d k) = true
  ∧ (∀ j : Nat, 1 ≤ j → j < k → b.cell_is_valid_and_empty (cellAt p d j) = true)
  ∧ ((b.occ (cellAt p d k)).isNone = true ∨ b.enemyAt white (cellAt p d k) = true)

/-- Concatenation of the rays of a list of directions (the generic shape
of the three sliding pieces' `get_reachable_cells`). -/
def slideReach (b : BoardSt) (white : Bool) (p : Cell) (dirs : List Cell) : List Cell :=
  dirs.foldr (fun d acc => ray b white p d ++ acc) []

/-- The centrality factor exactly as the spec words it (§4.3): outer edge
0.91, next ring 0.94, next ring 0.97, centre 1.0. -/
def spec_centrality (row col : Int) : ℚ :=
  if row = 0 ∨ row = 7 ∨ col = 0 ∨ col = 7 then 91 / 100
  else if row = 1 ∨ row = 6 ∨ col = 1 ∨ col = 6 then 94 / 100
  else if row = 2 ∨ row = 5 ∨ col = 2 ∨ col = 5 then 97 / 100
  else 1

/-- One tenth of an enemy piece's base material value, a capturable king
contributing 12 (spec §4.3, tactical term). -/
def threat_value (q : Pc) : ℚ :=
  (match q.kind with
    | .pawn => 1
    | .knight => 3
    | .bishop => 3
    | .rook => 5
    | .queen => 9
    | .king => 12
    | .other => 0) / 10

/-- Whether a cell holds a piece of the colour opposite to `white`
(decidably, for filtering). -/
def BoardSt.enemyOcc (b : BoardSt) (white : Bool) (c : Cell) : Bool :=
  b.enemyAt white c

/-- Vertical mirror of a cell (row `r` to `7 - r`). -/
def mirrorCell (c : Cell) : Cell :=
  (7 - c.1, c.2)

/-- Colour reflection of the whole game state: mirror the board
vertically and flip every piece's colour, keeping the kinds. -/
def BoardSt.mirror (b : BoardSt) : BoardSt where
  occ := fun c => b.occ (mirrorCell c)
  pos := fun q => (b.pos q).map mirrorCell
  info := fun q => ⟨!(b.info q).white, (b.info q).kind⟩

/-! ## Sample game states (concrete witnesses) -/

/-- A check oracle that never reports check. -/
def chkF : BoardSt → Bool → Bool := fun _ _ => false

/-- A board whose only piece is piece `0`, with the given colour, kind and
cell. -/
def onePieceBoard (w : Bool) (k : Kind) (c : Cell) : BoardSt where
  occ := fun x => if x = c then some 0 else none
  pos := fun q => if q = 0 then some c else none
  info := fun _ => ⟨w, k⟩

/-- Scenario A of the spec: a white rook `0` at `(0,0)` and a black pawn
`1` at `(0,5)`, nothing else. -/
def boardA : BoardSt where
  occ := fun c =>
    if c = ((0 : Int), (0 : Int)) then some 0
    else if c = ((0 : Int), (5 : Int)) then some 1
    else none
  pos := fun q =>
    if q = 0 then some ((0 : Int), (0 : Int))
    else if q = 1 then some ((0 : Int), (5 : Int))
    else none
  info := fun q => if q = 0 then ⟨true, .rook⟩ else ⟨false, .pawn⟩

/-- A board holding a single piece `0` that has no assigned position. -/
def unplacedBoard (k : Kind) : BoardSt where
  occ := fun _ => none
  pos := fun _ => none
  info := fun _ => ⟨true, k⟩

/-! ## General lemmas -/

theorem mem_ite_singleton {α : Type} {p : Prop} [Decidable p] {x a : α} :
    (a ∈ if p then [x] else ([] : List α)) ↔ p ∧ a = x := by
  split <;> simp_all

theorem ite_singleton_append {α : Type} {p : Prop} [Decidable p] {x : α} {l : List α} :
    (if p then [x] else []) ++ l = if p then x :: l else l := by
  split <;> simp

/-- `can_enter_cell` unfolded to the spec's wording: on-board and (empty
or enemy-occupied). -/
theorem can_enter_iff {b : BoardSt} {w : Bool} {c : Cell} :
    b.piece_can_enter_cell w c = true ↔
      onBoard c = true ∧ ((b.occ c).isNone = true ∨ b.enemyAt w c = true) := by
  simp [BoardSt.piece_can_enter_cell]

/-- `can_hit_on_cell` unfolded: on-board and enemy-occupied. -/
theorem can_hit_iff {b : BoardSt} {w : Bool} {c : Cell} :
    b.piece_can_hit_on_cell w c = true ↔ onBoard c = true ∧ b.enemyAt w c = true := by
  simp [BoardSt.piece_can_hit_on_cell]

/-- On a board with no occupants outside `[0,7]²`, holding an enemy
already implies being on-board, so `can_hit_on_cell` is plain
enemy-occupancy. -/
theorem can_hit_iff_enemy {b : BoardSt} {w : Bool} {c : Cell}
    (hclean : ∀ x : Cell, onBoard x = false → b.occ x = none) :
    b.piece_can_hit_on_cell w c = true ↔ b.enemyAt w c = true := by
  rw [can_hit_iff]
  refine ⟨fun h => h.2, fun h => ⟨?_, h⟩⟩
  by_contra hob
  have : b.occ c = none := hclean c (by revert hob; cases onBoard c <;> simp)
  simp [BoardSt.enemyAt, BoardSt.pcAt, this] at h

/-! ## Ray lemmas -/

theorem bandL {x y : Bool} (h : (x && y) = true) : x = true := by
  rcases Bool.and_eq_true x y ▸ h with ⟨h1, -⟩
  exact h1

theorem bandR {x y : Bool} (h : (x && y) = true) : y = true := by
  rcases Bool.and_eq_true x y ▸ h with ⟨-, h2⟩
  exact h2

theorem bandI {x y : Bool} (hx : x = true) (hy : y = true) : (x && y) = true := by
  rw [hx, hy]
  rfl


/-- Membership in a ray walk: the candidate list splits into an
all-empty prefix, the member itself (empty or hittable), and a rest. -/
theorem mem_rayWalk_iff {b : BoardSt} {w : Bool} {cells : List Cell} {c : Cell} :
    c ∈ rayWalk b w cells ↔
      ∃ l₁ l₂, cells = l₁ ++ c :: l₂
        ∧ (∀ x ∈ l₁, b.cell_is_valid_and_empty x = true)
        ∧ (b.cell_is_valid_and_empty c = true ∨ b.piece_can_hit_on_cell w c = true) := by
  induction cells with
  | nil =>
    simp only [rayWalk, List.not_mem_nil, false_iff]
    rintro ⟨l₁, l₂, heq, -, -⟩
    exact List.noConfusion (List.append_eq_nil.mp heq.symm).2
  | cons c0 rest ih =>
    by_cases hve : b.cell_is_valid_and_empty c0 = true
    · rw [show rayWalk b w (c0 :: rest) = c0 :: rayWalk b w rest by rw [rayWalk, if_pos hve]]
      rw [List.mem_cons, ih]
      constructor
      · rintro (rfl | ⟨l₁, l₂, rfl, hpre, hlast⟩)
        · exact ⟨[], rest, rfl, by simp, Or.inl hve⟩
        · refine ⟨c0 :: l₁, l₂, rfl, ?_, hlast⟩
          intro x hx
          rcases List.mem_cons.mp hx with rfl | hx
          · exact hve
          · exact hpre x hx
      · rintro ⟨l₁, l₂, heq, hpre, hlast⟩
        cases l₁ with
        | nil =>
          rw [List.nil_append] at heq
          exact Or.inl (List.head_eq_of_cons_eq heq).symm
        | cons y l₁ =>
          rw [List.cons_append] at heq
          obtain ⟨rfl, heq2⟩ := List.cons_eq_cons.mp heq
          exact Or.inr ⟨l₁, l₂, heq2, fun x hx => hpre x (List.mem_cons_of_mem _ hx), hlast⟩
    · by_cases hhit : b.piece_can_hit_on_cell w c0 = true
      · rw [show rayWalk b w (c0 :: rest) = [c0] by rw [rayWalk, if_neg hve, if_pos hhit]]
        simp only [List.mem_singleton]
        constructor
        · rintro rfl
          exact ⟨[], rest, rfl, by simp, Or.inr hhit⟩
        · rintro ⟨l₁, l₂, heq, hpre, hlast⟩
          cases l₁ with
          | nil =>
            rw [List.nil_append] at heq
            exact (List.head_eq_of_cons_eq heq).symm
          | cons y l₁ =>
            rw [List.cons_append] at heq
            obtain ⟨rfl, -⟩ := List.cons_eq_cons.mp heq
            exact absurd (hpre c0 (List.mem_cons_self c0 l₁)) (by simp [hve])
      · rw [show rayWalk b w (c0 :: rest) = [] by rw [rayWalk, if_neg hve, if_neg hhit]]
        simp only [List.not_mem_nil, false_iff]
        rintro ⟨l₁, l₂, heq, hpre, hlast⟩
        cases l₁ with
        | nil =>
          rw [List.nil_append] at heq
          obtain ⟨rfl, -⟩ := List.cons_eq_cons.mp heq
          rcases hlast with h | h
          · exact hve h
          · exact hhit h
        | cons y l₁ =>
          rw [List.cons_append] at heq
          obtain ⟨rfl, -⟩ := List.cons_eq_cons.mp heq
          exact hve (hpre c0 (List.mem_cons_self c0 l₁))

/-- The cells of one line are pairwise distinct for a nonzero
direction. -/
theorem cellAt_inj {p d : Cell} (hd : d ≠ ((0 : Int), (0 : Int))) {a k : Nat}
    (h : cellAt p d a = cellAt p d k) : a = k := by
  have hd' : d.1 ≠ 0 ∨ d.2 ≠ 0 := by
    by_contra hcon
    push_neg at hcon
    exact hd (Prod.ext hcon.1 hcon.2)
  rw [cellAt, cellAt, Prod.mk.injEq] at h
  obtain ⟨h1, h2⟩ := h
  rcases hd' with h' | h'
  · have : d.1 * a = d.1 * k := by omega
    have := mul_left_cancel₀ h' this
    exact_mod_cast this
  · have : d.2 * a = d.2 * k := by omega
    have := mul_left_cancel₀ h' this
    exact_mod_cast this

theorem lineCells_length {p d : Cell} {n : Nat} : (lineCells p d n).length = n := by
  simp [lineCells]

theorem lineCells_getElem {p d : Cell} {n i : Nat} (h : i < n) :
    GetElem.getElem (lineCells p d n) i (by rw [lineCells_length]; exact h)
      = cellAt p d (i + 1) := by
  simp [lineCells]

/-- Every member of a line is the cell at some distance `1 ≤ k ≤ n`. -/
theorem mem_lineCells {p d : Cell} {n : Nat} {c : Cell} (h : c ∈ lineCells p d n) :
    ∃ k, 1 ≤ k ∧ k ≤ n ∧ c = cellAt p d k := by
  rw [lineCells, List.mem_map] at h
  obtain ⟨i, hi, rfl⟩ := h
  rw [List.mem_range] at hi
  exact ⟨i + 1, by omega, by omega, rfl⟩

/-- A ray walk only visits cells of its candidate line. -/
theorem rayWalk_subset {b : BoardSt} {w : Bool} {cells : List Cell} {c : Cell}
    (h : c ∈ rayWalk b w cells) : c ∈ cells := by
  obtain ⟨l₁, l₂, rfl, -, -⟩ := mem_rayWalk_iff.mp h
  simp

/-- Membership of the cell at distance `k` in one full ray walk, for a
nonzero direction whose candidate count covers every on-board cell of
the ray. -/
theorem mem_ray_iff {b : BoardSt} {w : Bool} {p d : Cell} {n : Nat}
    (hd : d ≠ ((0 : Int), (0 : Int))) {k : Nat} (hk : 1 ≤ k)
    (hkn : onBoard (cellAt p d k) = true → k ≤ n) :
    cellAt p d k ∈ rayWalk b w (lineCells p d n) ↔ rayCond b w p d k := by
  constructor
  · intro h
    obtain ⟨l₁, l₂, heq, hpre, hlast⟩ := mem_rayWalk_iff.mp h
    have hob : onBoard (cellAt p d k) = true := by
      rcases hlast with h' | h'
      · exact bandL h'
      · exact bandL h'
    have hlen : l₁.length < n := by
      have := congrArg List.length heq
      rw [lineCells_length] at this
      simp at this
      omega
    have hidx : GetElem.getElem (lineCells p d n) l₁.length
        (by rw [lineCells_length]; exact hlen) = cellAt p d k := by
      have h1 := List.getElem_of_eq heq
        (show l₁.length < (lineCells p d n).length by rw [lineCells_length]; exact hlen)
      rw [h1, List.getElem_append_right (le_refl l₁.length)]
      simp
    rw [lineCells_getElem hlen] at hidx
    have hk' : l₁.length + 1 = k := cellAt_inj hd hidx
    have htake : l₁ = lineCells p d (k - 1) := by
      have h1 : l₁ = (lineCells p d n).take l₁.length := by
        rw [heq, List.take_left]
      rw [h1, show l₁.length = k - 1 by omega, lineCells, lineCells, ← List.map_take,
        List.take_range, show min (k - 1) n = k - 1 by omega]
    refine ⟨hob, ?_, ?_⟩
    · intro j hj1 hjk
      have hmem : cellAt p d j ∈ l₁ := by
        rw [htake, lineCells, List.mem_map]
        refine ⟨j - 1, List.mem_range.mpr (by omega), ?_⟩
        congr 1
        omega
      exact hpre _ hmem
    · rcases hlast with h' | h'
      · exact Or.inl (bandR h')
      · exact Or.inr (bandR h')
  · rintro ⟨hob, hpre, hocc⟩
    have hkn' : k ≤ n := hkn hob
    rw [mem_rayWalk_iff]
    refine ⟨(lineCells p d n).take (k - 1), (lineCells p d n).drop k, ?_, ?_, ?_⟩
    · conv_lhs => rw [← List.take_append_drop (k - 1) (lineCells p d n)]
      congr 1
      have hdrop : (lineCells p d n).drop (k - 1) =
          GetElem.getElem (lineCells p d n) (k - 1) (by rw [lineCells_length]; omega) ::
            (lineCells p d n).drop (k - 1 + 1) := by
        exact List.drop_eq_getElem_cons (by rw [lineCells_length]; omega)
      rw [hdrop, lineCells_getElem (show k - 1 < n by omega)]
      congr 2
      · omega
      · omega
    · intro x hx
      have hx' : x ∈ lineCells p d (k - 1) := by
        have he : (lineCells p d n).take (k - 1) = lineCells p d (k - 1) := by
          rw [lineCells, lineCells, ← List.map_take, List.take_range,
            show min (k - 1) n = k - 1 by omega]
        rwa [he] at hx
      obtain ⟨j, hj1, hj2, rfl⟩ := mem_lineCells hx'
      exact hpre j hj1 (by omega)
    · rcases hocc with h' | h'
      · exact Or.inl (bandI hob h')
      · exact Or.inr (bandI hob h')

theorem queen_dir_ne_zero {d : Cell} (hd : d ∈ queenDirs) : d ≠ ((0 : Int), (0 : Int)) := by
  fin_cases hd <;> decide

/-- Cells at positive distances along two distinct directions are
distinct. -/
theorem dirs_disjoint {p d d' : Cell} (hd : d ∈ queenDirs) (hd' : d' ∈ queenDirs)
    (hne : d ≠ d') {k k' : Nat} (hk : 1 ≤ k) (hk' : 1 ≤ k') :
    cellAt p d k ≠ cellAt p d' k' := by
  intro h
  rw [cellAt, cellAt, Prod.mk.injEq] at h
  obtain ⟨h1, h2⟩ := h
  fin_cases hd <;> fin_cases hd' <;> first | exact hne rfl | omega

/-- The loop bound of each ray loop covers every on-board cell of the
ray. -/
theorem onBoard_le_rayLen {p d : Cell} {k : Nat} (hp : onBoard p = true) (hd : d ∈ queenDirs)
    (hob : onBoard (cellAt p d k) = true) : k ≤ rayLen p d := by
  fin_cases hd <;>
    simp only [onBoard, cellAt, rayLen, Bool.and_eq_true, decide_eq_true_eq] at hp hob ⊢ <;>
    norm_num <;> omega

theorem mem_ray_iff' {b : BoardSt} {w : Bool} {p d : Cell} (hp : onBoard p = true)
    (hd : d ∈ queenDirs) {k : Nat} (hk : 1 ≤ k) :
    cellAt p d k ∈ ray b w p d ↔ rayCond b w p d k :=
  mem_ray_iff (queen_dir_ne_zero hd) hk (onBoard_le_rayLen hp hd)

theorem mem_slide_exists {b : BoardSt} {w : Bool} {p : Cell} {dirs : List Cell} {c : Cell}
    (h : c ∈ slideReach b w p dirs) : ∃ d ∈ dirs, c ∈ ray b w p d := by
  induction dirs with
  | nil => simp [slideReach] at h
  | cons d0 rest ih =>
    rw [show slideReach b w p (d0 :: rest) = ray b w p d0 ++ slideReach b w p rest from rfl,
      List.mem_append] at h
    rcases h with h | h
    · exact ⟨d0, List.mem_cons_self _ _, h⟩
    · obtain ⟨d', hd', hm⟩ := ih h
      exact ⟨d', List.mem_cons_of_mem _ hd', hm⟩

/-- Membership of the cell at distance `k ≥ 1` along `d` in the
concatenated rays of a duplicate-free list of directions containing
`d`. -/
theorem mem_slide_iff {b : BoardSt} {w : Bool} {p : Cell} {dirs : List Cell}
    (hp : onBoard p = true) {d : Cell} {k : Nat} (hk : 1 ≤ k)
    (hsub : ∀ x ∈ dirs, x ∈ queenDirs) (hnd : dirs.Nodup) (hd : d ∈ dirs) :
    (cellAt p d k ∈ slideReach b w p dirs ↔ rayCond b w p d k) := by
  have hdq : d ∈ queenDirs := hsub d hd
  revert hsub hnd hd
  induction dirs with
  | nil => intro _ _ hd; cases hd
  | cons d0 rest ih =>
    intro hsub hnd hd
    rw [List.nodup_cons] at hnd
    rw [show slideReach b w p (d0 :: rest) = ray b w p d0 ++ slideReach b w p rest from rfl,
      List.mem_append]
    rcases List.mem_cons.mp hd with rfl | hdr
    · constructor
      · rintro (h | h)
        · exact (mem_ray_iff' hp hdq hk).mp h
        · exfalso
          obtain ⟨d', hd', hmem⟩ := mem_slide_exists h
          obtain ⟨k', hk1', _, heq⟩ := mem_lineCells (rayWalk_subset hmem)
          exact dirs_disjoint hdq (hsub d' (List.mem_cons_of_mem _ hd'))
            (fun hEq => hnd.1 (hEq ▸ hd')) hk hk1' heq
      · intro hc
        exact Or.inl ((mem_ray_iff' hp hdq hk).mpr hc)
    · constructor
      · rintro (h | h)
        · exfalso
          obtain ⟨k', hk1', _, heq⟩ := mem_lineCells (rayWalk_subset h)
          exact dirs_disjoint hdq (hsub d0 (List.mem_cons_self _ _))
            (fun hEq => hnd.1 (hEq ▸ hdr)) hk hk1' heq
        · exact (ih (fun x hx => hsub x (List.mem_cons_of_mem _ hx)) hnd.2 hdr).mp h
      · intro hc
        exact Or.inr ((ih (fun x hx => hsub x (List.mem_cons_of_mem _ hx)) hnd.2 hdr).mpr hc)

theorem Rook_eq_slide (b : BoardSt) (w : Bool) (p : Cell) :
    Rook.get_reachable_cells b w p = slideReach b w p rookDirs := by
  simp [Rook.get_reachable_cells, slideReach, rookDirs]

theorem Bishop_eq_slide (b : BoardSt) (w : Bool) (p : Cell) :
    Bishop.get_reachable_cells b w p = slideReach b w p bishopDirs := by
  simp [Bishop.get_reachable_cells, slideReach, bishopDirs]

theorem Queen_eq_slide (b : BoardSt) (w : Bool) (p : Cell) :
    Queen.get_reachable_cells b w p = slideReach b w p queenDirs := by
  simp [Queen.get_reachable_cells, slideReach, queenDirs]

theorem rook_sub_queen : ∀ x ∈ rookDirs, x ∈ queenDirs := by
  intro x hx
  fin_cases hx <;> decide

theorem bishop_sub_queen : ∀ x ∈ bishopDirs, x ∈ queenDirs := by
  intro x hx
  fin_cases hx <;> decide

/-! ## Duplicate-freeness lemmas -/

theorem ite_singleton_sublist {α : Type} {p : Prop} [Decidable p] {x : α} :
    List.Sublist (if p then [x] else []) [x] := by
  split
  · exact List.Sublist.refl _
  · exact List.nil_sublist _

theorem lineCells_nodup {p d : Cell} {n : Nat} (hd : d ≠ ((0 : Int), (0 : Int))) :
    (lineCells p d n).Nodup := by
  rw [lineCells]
  refine List.Nodup.map (fun a b h => ?_) (List.nodup_range n)
  have := cellAt_inj hd h
  omega

theorem rayWalk_eq_take {b : BoardSt} {w : Bool} (cells : List Cell) :
    ∃ m, rayWalk b w cells = cells.take m := by
  induction cells with
  | nil => exact ⟨0, rfl⟩
  | cons c0 rest ih =>
    by_cases hve : b.cell_is_valid_and_empty c0 = true
    · obtain ⟨m, hm⟩ := ih
      refine ⟨m + 1, ?_⟩
      rw [show rayWalk b w (c0 :: rest) = c0 :: rayWalk b w rest by rw [rayWalk, if_pos hve],
        hm]
      rfl
    · by_cases hhit : b.piece_can_hit_on_cell w c0 = true
      · refine ⟨1, ?_⟩
        rw [show rayWalk b w (c0 :: rest) = [c0] by rw [rayWalk, if_neg hve, if_pos hhit]]
        rfl
      · refine ⟨0, ?_⟩
        rw [show rayWalk b w (c0 :: rest) = [] by rw [rayWalk, if_neg hve, if_neg hhit]]
        rfl

theorem ray_nodup {b : BoardSt} {w : Bool} {p d : Cell} (hd : d ≠ ((0 : Int), (0 : Int))) :
    (ray b w p d).Nodup := by
  obtain ⟨m, hm⟩ := rayWalk_eq_take (b := b) (w := w) (lineCells p d (rayLen p d))
  rw [ray, hm]
  exact (lineCells_nodup hd).sublist (List.take_sublist m _)

theorem ray_subset_line {b : BoardSt} {w : Bool} {p d c : Cell} (h : c ∈ ray b w p d) :
    ∃ k, 1 ≤ k ∧ c = cellAt p d k := by
  obtain ⟨k, hk1, _, hc⟩ := mem_lineCells (rayWalk_subset h)
  exact ⟨k, hk1, hc⟩

theorem slideReach_nodup {b : BoardSt} {w : Bool} {p : Cell} {dirs : List Cell}
    (hsub : ∀ x ∈ dirs, x ∈ queenDirs) (hnd : dirs.Nodup) :
    (slideReach b w p dirs).Nodup := by
  induction dirs with
  | nil => exact List.nodup_nil
  | cons d0 rest ih =>
    rw [List.nodup_cons] at hnd
    rw [show slideReach b w p (d0 :: rest) = ray b w p d0 ++ slideReach b w p rest from rfl,
      List.nodup_append]
    refine ⟨ray_nodup (queen_dir_ne_zero (hsub d0 (List.mem_cons_self _ _))),
      ih (fun x hx => hsub x (List.mem_cons_of_mem _ hx)) hnd.2, ?_⟩
    intro c hc hc'
    obtain ⟨k, hk1, rfl⟩ := ray_subset_line hc
    obtain ⟨d', hd', hmem⟩ := mem_slide_exists hc'
    obtain ⟨k', hk1', heq⟩ := ray_subset_line hmem
    exact dirs_disjoint (hsub d0 (List.mem_cons_self _ _))
      (hsub d' (List.mem_cons_of_mem _ hd')) (fun hEq => hnd.1 (hEq ▸ hd')) hk1 hk1' heq

theorem self_not_mem_slide {b : BoardSt} {w : Bool} {p : Cell} {dirs : List Cell}
    (hsub : ∀ x ∈ dirs, x ∈ queenDirs) : p ∉ slideReach b w p dirs := by
  intro h
  obtain ⟨d, hd, hmem⟩ := mem_slide_exists h
  obtain ⟨k, hk1, heq⟩ := ray_subset_line hmem
  have h1 := congrArg Prod.fst heq
  have h2 := congrArg Prod.snd heq
  simp only [cellAt] at h1 h2
  have hdq := hsub d hd
  fin_cases hdq <;> simp at h1 h2 <;> omega

theorem pawn_nodup_own (b : BoardSt) (w : Bool) (row col : Int) :
    (row, col) ∉ Pawn.get_reachable_cells b w (row, col)
      ∧ (Pawn.get_reachable_cells b w (row, col)).Nodup := by
  cases w
  · have hunf : Pawn.get_reachable_cells b false (row, col) =
        (if b.cell_is_valid_and_empty (row - 1, col) then
          (row - 1, col) ::
            (if row = 6 && b.cell_is_valid_and_empty (4, col) then [((4 : Int), col)] else [])
        else [])
        ++ (if b.piece_can_hit_on_cell false (row - 1, col + 1) then [(row - 1, col + 1)]
            else [])
        ++ (if b.piece_can_hit_on_cell false (row - 1, col - 1) then [(row - 1, col - 1)]
            else []) := rfl
    rw [hunf]
    simp only [Bool.and_eq_true, decide_eq_true_eq]
    split_ifs <;>
      simp_all [List.mem_append, List.mem_cons, List.nodup_append, List.nodup_cons,
        List.Disjoint, Prod.mk.injEq] <;>
      omega
  · have hunf : Pawn.get_reachable_cells b true (row, col) =
        (if b.cell_is_valid_and_empty (row + 1, col) then
          (row + 1, col) ::
            (if row = 1 && b.cell_is_valid_and_empty (3, col) then [((3 : Int), col)] else [])
        else [])
        ++ (if b.piece_can_hit_on_cell true (row + 1, col + 1) then [(row + 1, col + 1)]
            else [])
        ++ (if b.piece_can_hit_on_cell true (row + 1, col - 1) then [(row + 1, col - 1)]
            else []) := rfl
    rw [hunf]
    simp only [Bool.and_eq_true, decide_eq_true_eq]
    split_ifs <;>
      simp_all [List.mem_append, List.mem_cons, List.nodup_append, List.nodup_cons,
        List.Disjoint, Prod.mk.injEq] <;>
      omega

theorem knight_nodup_own (b : BoardSt) (w : Bool) (row col : Int) :
    (row, col) ∉ Knight.get_reachable_cells b w (row, col)
      ∧ (Knight.get_reachable_cells b w (row, col)).Nodup := by
  have hsl : List.Sublist (Knight.get_reachable_cells b w (row, col))
      [(row - 2, col + 1), (row - 2, col - 1), (row + 2, col + 1), (row + 2, col - 1),
        (row + 1, col - 2), (row - 1, col - 2), (row + 1, col + 2), (row - 1, col + 2)] := by
    rw [Knight.get_reachable_cells]
    exact List.Sublist.append (List.Sublist.append (List.Sublist.append (List.Sublist.append
      (List.Sublist.append (List.Sublist.append (List.Sublist.append
        ite_singleton_sublist ite_singleton_sublist) ite_singleton_sublist)
        ite_singleton_sublist) ite_singleton_sublist) ite_singleton_sublist)
        ite_singleton_sublist) ite_singleton_sublist
  constructor
  · intro h
    have := hsl.subset h
    simp only [List.mem_cons, List.not_mem_nil, or_false, Prod.mk.injEq] at this
    omega
  · refine List.Nodup.sublist hsl ?_
    simp only [List.nodup_cons, List.mem_cons, List.not_mem_nil, or_false, List.nodup_nil,
      Prod.mk.injEq, not_or, and_true, not_false_eq_true, not_and]
    omega

theorem king_nodup_own (b : BoardSt) (w : Bool) (p : Cell) :
    p ∉ King.get_reachable_cells b w p ∧ (King.get_reachable_cells b w p).Nodup := by
  constructor
  · intro h
    rw [King.get_reachable_cells, List.mem_filter, List.mem_map] at h
    obtain ⟨⟨o, ho, heq⟩, -⟩ := h
    have h1 := congrArg Prod.fst heq
    have h2 := congrArg Prod.snd heq
    simp only at h1 h2
    fin_cases ho <;> simp at h1 h2
  · rw [King.get_reachable_cells]
    refine List.Nodup.filter _ ?_
    refine List.Nodup.map (fun a b h => ?_) (by decide : kingOffsets.Nodup)
    have h1 := congrArg Prod.fst h
    have h2 := congrArg Prod.snd h
    simp only at h1 h2
    exact Prod.ext (by omega) (by omega)

/-! ## Simulate-and-restore lemmas -/

/-- The three `set_cell` calls of one loop iteration of
`get_valid_cells` — place the mover on the candidate cell, put it back on
its original cell, restore the candidate's previous occupant — return the
board to exactly its previous state, for any candidate cell. -/
theorem restore_step (b : BoardSt) (s : PieceId) (og c : Cell)
    (hC : b.Consistent) (hpos : b.pos s = some og) (hocc : b.occ og = some s) :
    ((b.set_cell c (some s)).set_cell og (some s)).set_cell c (b.occ c) = b := by
  have hs : ∀ x, b.occ x = some s ↔ x = og := by
    intro x
    constructor
    · intro h
      have h' := hC x s h
      rw [hpos] at h'
      exact (Option.some.inj h').symm
    · rintro rfl
      exact hocc
  cases henemy : b.occ c with
  | some e =>
    have hpe : b.pos e = some c := hC c e henemy
    have he : ∀ x, b.occ x = some e ↔ x = c := by
      intro x
      constructor
      · intro h
        have h' := hC x e h
        rw [hpe] at h'
        exact (Option.some.inj h').symm
      · rintro rfl
        exact henemy
    have hne : s = e → og = c := by
      rintro rfl
      rw [hpos] at hpe
      exact Option.some.inj hpe
    refine BoardSt.ext ?_ ?_ ?_
    · funext x
      simp only [BoardSt.set_cell]
      by_cases hxc : x = c
      · subst hxc
        simp only [if_pos rfl]
        exact henemy.symm
      · simp only [if_neg hxc]
        by_cases hxog : x = og
        · subst hxog
          have hse : ¬(s = e) := fun h => hxc (hne h)
          have hbx : b.occ x = some s := (hs x).mpr rfl
          simp only [if_neg hxc, if_pos rfl, hbx, if_true]
          rw [if_neg (show ¬(some s = some e) from by simpa using hse)]
        · have h1 : ¬(b.occ x = some s) := fun h => hxog ((hs x).mp h)
          have h2 : ¬(b.occ x = some e) := fun h => hxc ((he x).mp h)
          simp only [if_neg hxc, if_neg hxog, if_neg h1, if_neg h2]
    · funext r
      simp only [BoardSt.set_cell]
      by_cases hre : r = e
      · subst hre
        simp only [if_pos rfl]
        exact hpe.symm
      · simp only [if_neg hre]
        by_cases hrs : r = s
        · subst hrs
          simp only [if_pos rfl]
          exact hpos.symm
        · simp only [if_neg hrs]
    · rfl
  | none =>
    have hcog : ¬(c = og) := by
      intro h
      rw [h, hocc] at henemy
      exact Option.noConfusion henemy
    refine BoardSt.ext ?_ ?_ ?_
    · funext x
      simp only [BoardSt.set_cell]
      by_cases hxc : x = c
      · subst hxc
        simp only [if_pos rfl]
        exact henemy.symm
      · simp only [if_neg hxc]
        by_cases hxog : x = og
        · subst hxog
          simp only [if_pos rfl]
          exact hocc.symm
        · have h1 : ¬(b.occ x = some s) := fun h => hxog ((hs x).mp h)
          simp only [if_neg hxc, if_neg hxog, if_neg h1]
    · funext r
      simp only [BoardSt.set_cell]
      by_cases hrs : r = s
      · subst hrs
        simp only [if_pos rfl]
        exact hpos.symm
      · simp only [if_neg hrs]
    · rfl

/-- The whole simulate-and-restore loop of `get_valid_cells` computes the
check-oracle filter of its input list and returns the board unchanged. -/
theorem validLoop_spec (chk : BoardSt → Bool → Bool) (s : PieceId) (w : Bool) (og : Cell)
    (b : BoardSt) (hC : b.Consistent) (hpos : b.pos s = some og) (hocc : b.occ og = some s)
    (l : List Cell) :
    validLoop chk s w og l b =
      (l.filter (fun c => !(chk (b.set_cell c (some s)) w)), b) := by
  induction l with
  | nil => rfl
  | cons c rest ih =>
    have hb2 : ((b.set_cell c (some s)).set_cell og (some s)).set_cell c (b.get_cell c) = b :=
      restore_step b s og c hC hpos hocc
    rw [validLoop, hb2, ih, List.filter_cons]

/-! ## Theorems for the claims -/

/-! ## Colour-reflection lemmas -/

theorem bool_eq_of_iff {a b : Bool} (h : a = true ↔ b = true) : a = b := by
  cases a <;> cases b <;> simp_all

theorem mirrorCell_invol (c : Cell) : mirrorCell (mirrorCell c) = c := by
  obtain ⟨r, cc⟩ := c
  show ((7 : Int) - (7 - r), cc) = (r, cc)
  rw [Prod.mk.injEq]
  exact ⟨by omega, rfl⟩

theorem onBoard_mirror (c : Cell) : onBoard (mirrorCell c) = onBoard c := by
  obtain ⟨r, cc⟩ := c
  refine bool_eq_of_iff ?_
  simp only [onBoard, mirrorCell, Bool.and_eq_true, decide_eq_true_eq]
  omega

theorem occ_mirror_invol (b : BoardSt) (c : Cell) :
    b.mirror.occ (mirrorCell c) = b.occ c := by
  show b.occ (mirrorCell (mirrorCell c)) = b.occ c
  rw [mirrorCell_invol]

theorem ve_mirror (b : BoardSt) (c : Cell) :
    b.mirror.cell_is_valid_and_empty (mirrorCell c) = b.cell_is_valid_and_empty c := by
  rw [BoardSt.cell_is_valid_and_empty, BoardSt.cell_is_valid_and_empty, onBoard_mirror,
    occ_mirror_invol]

theorem pcAt_mirror (b : BoardSt) (c : Cell) :
    b.mirror.pcAt (mirrorCell c) = (b.pcAt c).map fun q => ⟨!q.white, q.kind⟩ := by
  rw [BoardSt.pcAt, BoardSt.pcAt, occ_mirror_invol, Option.map_map]
  rfl

theorem enemyAt_mirror (b : BoardSt) (w : Bool) (c : Cell) :
    b.mirror.enemyAt (!w) (mirrorCell c) = b.enemyAt w c := by
  rw [BoardSt.enemyAt, BoardSt.enemyAt, pcAt_mirror]
  cases hq : b.pcAt c with
  | none => rfl
  | some q =>
    simp only [Option.map_some']
    show ((!q.white) != !w) = (q.white != w)
    cases q.white <;> cases w <;> rfl

theorem hit_mirror (b : BoardSt) (w : Bool) (c : Cell) :
    b.mirror.piece_can_hit_on_cell (!w) (mirrorCell c) = b.piece_can_hit_on_cell w c := by
  rw [BoardSt.piece_can_hit_on_cell, BoardSt.piece_can_hit_on_cell, onBoard_mirror,
    enemyAt_mirror]

theorem enter_mirror (b : BoardSt) (w : Bool) (c : Cell) :
    b.mirror.piece_can_enter_cell (!w) (mirrorCell c) = b.piece_can_enter_cell w c := by
  rw [BoardSt.piece_can_enter_cell, BoardSt.piece_can_enter_cell, onBoard_mirror,
    enemyAt_mirror, occ_mirror_invol]

theorem mirror_consistent {b : BoardSt} (hC : b.Consistent) : b.mirror.Consistent := by
  intro x q h
  have h' : b.occ (mirrorCell x) = some q := h
  have := hC (mirrorCell x) q h'
  show (b.pos q).map mirrorCell = some x
  rw [this, Option.map_some', mirrorCell_invol]

theorem set_cell_mirror (b : BoardSt) (c : Cell) (s : PieceId) :
    b.mirror.set_cell (mirrorCell c) (some s) = (b.set_cell c (some s)).mirror := by
  refine BoardSt.ext ?_ ?_ ?_
  · funext x
    show (if x = mirrorCell c then some s
        else if b.occ (mirrorCell x) = some s then none else b.occ (mirrorCell x))
      = (if mirrorCell x = c then some s
        else if b.occ (mirrorCell x) = some s then none else b.occ (mirrorCell x))
    by_cases hx : x = mirrorCell c
    · subst hx
      rw [if_pos rfl, if_pos (mirrorCell_invol c)]
    · rw [if_neg hx, if_neg (show ¬(mirrorCell x = c) from
        fun h => hx (by rw [← h, mirrorCell_invol]))]
  · funext r
    show (if r = s then some (mirrorCell c) else (b.pos r).map mirrorCell)
      = ((if r = s then some c else b.pos r).map mirrorCell)
    by_cases hr : r = s
    · rw [if_pos hr, if_pos hr, Option.map_some']
    · rw [if_neg hr, if_neg hr]
  · rfl

theorem rayWalk_mirror (b : BoardSt) (w : Bool) (cells : List Cell) :
    rayWalk b.mirror (!w) (cells.map mirrorCell) = (rayWalk b w cells).map mirrorCell := by
  induction cells with
  | nil => rfl
  | cons c0 rest ih =>
    rw [List.map_cons]
    by_cases hve : b.cell_is_valid_and_empty c0 = true
    · have hve' : b.mirror.cell_is_valid_and_empty (mirrorCell c0) = true := by
        rw [ve_mirror]
        exact hve
      rw [show rayWalk b.mirror (!w) (mirrorCell c0 :: rest.map mirrorCell)
          = mirrorCell c0 :: rayWalk b.mirror (!w) (rest.map mirrorCell) by
            rw [rayWalk, if_pos hve'],
        show rayWalk b w (c0 :: rest) = c0 :: rayWalk b w rest by rw [rayWalk, if_pos hve],
        List.map_cons, ih]
    · have hve' : ¬(b.mirror.cell_is_valid_and_empty (mirrorCell c0) = true) := by
        rw [ve_mirror]
        exact hve
      by_cases hhit : b.piece_can_hit_on_cell w c0 = true
      · have hhit' : b.mirror.piece_can_hit_on_cell (!w) (mirrorCell c0) = true := by
          rw [hit_mirror]
          exact hhit
        rw [show rayWalk b.mirror (!w) (mirrorCell c0 :: rest.map mirrorCell)
            = [mirrorCell c0] by rw [rayWalk, if_neg hve', if_pos hhit'],
          show rayWalk b w (c0 :: rest) = [c0] by rw [rayWalk, if_neg hve, if_pos hhit]]
        rfl
      · have hhit' : ¬(b.mirror.piece_can_hit_on_cell (!w) (mirrorCell c0) = true) := by
          rw [hit_mirror]
          exact hhit
        rw [show rayWalk b.mirror (!w) (mirrorCell c0 :: rest.map mirrorCell)
            = [] by rw [rayWalk, if_neg hve', if_neg hhit'],
          show rayWalk b w (c0 :: rest) = [] by rw [rayWalk, if_neg hve, if_neg hhit]]
        rfl

theorem lineCells_mirror (p d : Cell) (n : Nat) :
    lineCells (mirrorCell p) (-d.1, d.2) n = (lineCells p d n).map mirrorCell := by
  rw [lineCells, lineCells, List.map_map]
  congr 1
  funext i
  simp only [Function.comp_apply, cellAt, mirrorCell, Prod.mk.injEq]
  constructor
  · ring
  · trivial

theorem rayLen_mirror {p d : Cell} (hd : d ∈ queenDirs) :
    rayLen (mirrorCell p) (-d.1, d.2) = rayLen p d := by
  fin_cases hd <;> simp [rayLen, mirrorCell]

theorem ray_mirror (b : BoardSt) (w : Bool) (p : Cell) {d : Cell} (hd : d ∈ queenDirs) :
    ray b.mirror (!w) (mirrorCell p) (-d.1, d.2) = (ray b w p d).map mirrorCell := by
  rw [ray, ray, rayLen_mirror hd, lineCells_mirror, rayWalk_mirror]

/-- As `ray_mirror`, with the flipped direction given literally. -/
theorem ray_mirror' (b : BoardSt) (w : Bool) (p : Cell) {d d' : Cell} (hd : d ∈ queenDirs)
    (hdd : d' = (-d.1, d.2)) :
    ray b.mirror (!w) (mirrorCell p) d' = (ray b w p d).map mirrorCell := by
  subst hdd
  exact ray_mirror b w p hd

theorem rook_mirror_perm (b : BoardSt) (w : Bool) (p : Cell) :
    List.Perm (Rook.get_reachable_cells b.mirror (!w) (mirrorCell p))
      ((Rook.get_reachable_cells b w p).map mirrorCell) := by
  rw [Rook.get_reachable_cells, Rook.get_reachable_cells,
    ray_mirror' b w p (show ((-1 : Int), (0 : Int)) ∈ queenDirs by decide) (by norm_num),
    ray_mirror' b w p (show ((1 : Int), (0 : Int)) ∈ queenDirs by decide) (by norm_num),
    ray_mirror' b w p (show ((0 : Int), (-1 : Int)) ∈ queenDirs by decide) (by norm_num),
    ray_mirror' b w p (show ((0 : Int), (1 : Int)) ∈ queenDirs by decide) (by norm_num)]
  rw [← Multiset.coe_eq_coe]
  simp only [List.map_append, ← Multiset.coe_add]
  abel

theorem bishop_mirror_perm (b : BoardSt) (w : Bool) (p : Cell) :
    List.Perm (Bishop.get_reachable_cells b.mirror (!w) (mirrorCell p))
      ((Bishop.get_reachable_cells b w p).map mirrorCell) := by
  rw [Bishop.get_reachable_cells, Bishop.get_reachable_cells,
    ray_mirror' b w p (show ((-1 : Int), (1 : Int)) ∈ queenDirs by decide) (by norm_num),
    ray_mirror' b w p (show ((1 : Int), (1 : Int)) ∈ queenDirs by decide) (by norm_num),
    ray_mirror' b w p (show ((-1 : Int), (-1 : Int)) ∈ queenDirs by decide) (by norm_num),
    ray_mirror' b w p (show ((1 : Int), (-1 : Int)) ∈ queenDirs by decide) (by norm_num)]
  rw [← Multiset.coe_eq_coe]
  simp only [List.map_append, ← Multiset.coe_add]
  abel

theorem queen_mirror_perm (b : BoardSt) (w : Bool) (p : Cell) :
    List.Perm (Queen.get_reachable_cells b.mirror (!w) (mirrorCell p))
      ((Queen.get_reachable_cells b w p).map mirrorCell) := by
  rw [Queen.get_reachable_cells, Queen.get_reachable_cells,
    ray_mirror' b w p (show ((-1 : Int), (0 : Int)) ∈ queenDirs by decide) (by norm_num),
    ray_mirror' b w p (show ((1 : Int), (0 : Int)) ∈ queenDirs by decide) (by norm_num),
    ray_mirror' b w p (show ((0 : Int), (-1 : Int)) ∈ queenDirs by decide) (by norm_num),
    ray_mirror' b w p (show ((0 : Int), (1 : Int)) ∈ queenDirs by decide) (by norm_num),
    ray_mirror' b w p (show ((-1 : Int), (1 : Int)) ∈ queenDirs by decide) (by norm_num),
    ray_mirror' b w p (show ((1 : Int), (1 : Int)) ∈ queenDirs by decide) (by norm_num),
    ray_mirror' b w p (show ((-1 : Int), (-1 : Int)) ∈ queenDirs by decide) (by norm_num),
    ray_mirror' b w p (show ((1 : Int), (-1 : Int)) ∈ queenDirs by decide) (by norm_num)]
  rw [← Multiset.coe_eq_coe]
  simp only [List.map_append, ← Multiset.coe_add]
  abel

/-- A conditional singleton guarded by `can_enter_cell` on the mirrored
board equals the mirror image of the original conditional singleton. -/
theorem enter_ite_mirror (b : BoardSt) (w : Bool) (x : Cell) :
    (if b.mirror.piece_can_enter_cell (!w) (mirrorCell x) = true then [mirrorCell x] else [])
      = (if b.piece_can_enter_cell w x = true then [x] else []).map mirrorCell := by
  rw [enter_mirror]
  split <;> simp

theorem knight_mirror_perm (b : BoardSt) (w : Bool) (row col : Int) :
    List.Perm (Knight.get_reachable_cells b.mirror (!w) (mirrorCell (row, col)))
      ((Knight.get_reachable_cells b w (row, col)).map mirrorCell) := by
  have hy1 : ((7 : Int) - row - 2, col + 1) = mirrorCell (row + 2, col + 1) := by
    show _ = ((7 : Int) - (row + 2), col + 1)
    rw [Prod.mk.injEq]
    exact ⟨by ring, rfl⟩
  have hy2 : ((7 : Int) - row - 2, col - 1) = mirrorCell (row + 2, col - 1) := by
    show _ = ((7 : Int) - (row + 2), col - 1)
    rw [Prod.mk.injEq]
    exact ⟨by ring, rfl⟩
  have hy3 : ((7 : Int) - row + 2, col + 1) = mirrorCell (row - 2, col + 1) := by
    show _ = ((7 : Int) - (row - 2), col + 1)
    rw [Prod.mk.injEq]
    exact ⟨by ring, rfl⟩
  have hy4 : ((7 : Int) - row + 2, col - 1) = mirrorCell (row - 2, col - 1) := by
    show _ = ((7 : Int) - (row - 2), col - 1)
    rw [Prod.mk.injEq]
    exact ⟨by ring, rfl⟩
  have hy5 : ((7 : Int) - row + 1, col - 2) = mirrorCell (row - 1, col - 2) := by
    show _ = ((7 : Int) - (row - 1), col - 2)
    rw [Prod.mk.injEq]
    exact ⟨by ring, rfl⟩
  have hy6 : ((7 : Int) - row - 1, col - 2) = mirrorCell (row + 1, col - 2) := by
    show _ = ((7 : Int) - (row + 1), col - 2)
    rw [Prod.mk.injEq]
    exact ⟨by ring, rfl⟩
  have hy7 : ((7 : Int) - row + 1, col + 2) = mirrorCell (row - 1, col + 2) := by
    show _ = ((7 : Int) - (row - 1), col + 2)
    rw [Prod.mk.injEq]
    exact ⟨by ring, rfl⟩
  have hy8 : ((7 : Int) - row - 1, col + 2) = mirrorCell (row + 1, col + 2) := by
    show _ = ((7 : Int) - (row + 1), col + 2)
    rw [Prod.mk.injEq]
    exact ⟨by ring, rfl⟩
  have hm : Knight.get_reachable_cells b.mirror (!w) (mirrorCell (row, col)) =
      (if b.mirror.piece_can_enter_cell (!w) (7 - row - 2, col + 1) = true
        then [((7 : Int) - row - 2, col + 1)] else [])
      ++ (if b.mirror.piece_can_enter_cell (!w) (7 - row - 2, col - 1) = true
        then [((7 : Int) - row - 2, col - 1)] else [])
      ++ (if b.mirror.piece_can_enter_cell (!w) (7 - row + 2, col + 1) = true
        then [((7 : Int) - row + 2, col + 1)] else [])
      ++ (if b.mirror.piece_can_enter_cell (!w) (7 - row + 2, col - 1) = true
        then [((7 : Int) - row + 2, col - 1)] else [])
      ++ (if b.mirror.piece_can_enter_cell (!w) (7 - row + 1, col - 2) = true
        then [((7 : Int) - row + 1, col - 2)] else [])
      ++ (if b.mirror.piece_can_enter_cell (!w) (7 - row - 1, col - 2) = true
        then [((7 : Int) - row - 1, col - 2)] else [])
      ++ (if b.mirror.piece_can_enter_cell (!w) (7 - row + 1, col + 2) = true
        then [((7 : Int) - row + 1, col + 2)] else [])
      ++ (if b.mirror.piece_can_enter_cell (!w) (7 - row - 1, col + 2) = true
        then [((7 : Int) - row - 1, col + 2)] else []) := rfl
  rw [hm, hy1, hy2, hy3, hy4, hy5, hy6, hy7, hy8,
    enter_ite_mirror b w (row + 2, col + 1), enter_ite_mirror b w (row + 2, col - 1),
    enter_ite_mirror b w (row - 2, col + 1), enter_ite_mirror b w (row - 2, col - 1),
    enter_ite_mirror b w (row - 1, col - 2), enter_ite_mirror b w (row + 1, col - 2),
    enter_ite_mirror b w (row - 1, col + 2), enter_ite_mirror b w (row + 1, col + 2),
    Knight.get_reachable_cells]
  rw [← Multiset.coe_eq_coe]
  simp only [List.map_append, ← Multiset.coe_add]
  abel

theorem king_mirror_perm (b : BoardSt) (w : Bool) (p : Cell) :
    List.Perm (King.get_reachable_cells b.mirror (!w) (mirrorCell p))
      ((King.get_reachable_cells b w p).map mirrorCell) := by
  rw [King.get_reachable_cells, King.get_reachable_cells]
  have hcand : (kingOffsets.map fun o => ((mirrorCell p).1 + o.1, (mirrorCell p).2 + o.2))
      = ((kingOffsets.map fun o => ((p.1 + -o.1 : Int), p.2 + o.2)).map mirrorCell) := by
    rw [List.map_map]
    congr 1
    funext o
    show ((7 - p.1) + o.1, p.2 + o.2) = ((7 : Int) - (p.1 + -o.1), p.2 + o.2)
    rw [Prod.mk.injEq]
    exact ⟨by ring, rfl⟩
  rw [hcand, List.filter_map]
  have hpred : (b.mirror.piece_can_enter_cell (!w)) ∘ mirrorCell = b.piece_can_enter_cell w := by
    funext c
    exact enter_mirror b w c
  rw [hpred]
  refine List.Perm.map _ (List.Perm.filter _ ?_)
  have h1 : (kingOffsets.map fun o => ((p.1 + -o.1 : Int), p.2 + o.2))
      = ((kingOffsets.map fun o => ((-o.1 : Int), o.2)).map fun o => (p.1 + o.1, p.2 + o.2)) := by
    rw [List.map_map]
    congr 1
  rw [h1]
  refine List.Perm.map _ ?_
  show List.Perm (kingOffsets.map fun o => ((-o.1 : Int), o.2)) kingOffsets
  decide

theorem pawn_mirror (b : BoardSt) (w : Bool) (row col : Int) :
    Pawn.get_reachable_cells b.mirror (!w) (mirrorCell (row, col))
      = (Pawn.get_reachable_cells b w (row, col)).map mirrorCell := by
  cases w
  · -- black pawn mirrors to a white pawn one home rank away
    have hm : Pawn.get_reachable_cells b.mirror (!false) (mirrorCell (row, col)) =
        (if b.mirror.cell_is_valid_and_empty (7 - row + 1, col) then
          ((7 : Int) - row + 1, col) ::
            (if (7 - row : Int) = 1 && b.mirror.cell_is_valid_and_empty (3, col)
              then [((3 : Int), col)] else [])
        else [])
        ++ (if b.mirror.piece_can_hit_on_cell (!false) (7 - row + 1, col + 1)
            then [((7 : Int) - row + 1, col + 1)] else [])
        ++ (if b.mirror.piece_can_hit_on_cell (!false) (7 - row + 1, col - 1)
            then [((7 : Int) - row + 1, col - 1)] else []) := rfl
    have ho : Pawn.get_reachable_cells b false (row, col) =
        (if b.cell_is_valid_and_empty (row - 1, col) then
          (row - 1, col) ::
            (if row = 6 && b.cell_is_valid_and_empty (4, col) then [((4 : Int), col)] else [])
        else [])
        ++ (if b.piece_can_hit_on_cell false (row - 1, col + 1) then [(row - 1, col + 1)]
            else [])
        ++ (if b.piece_can_hit_on_cell false (row - 1, col - 1) then [(row - 1, col - 1)]
            else []) := rfl
    have hc0 : ((7 : Int) - row + 1, col) = mirrorCell (row - 1, col) := by
      show _ = ((7 : Int) - (row - 1), col)
      rw [Prod.mk.injEq]
      exact ⟨by ring, rfl⟩
    have hcR : ((7 : Int) - row + 1, col + 1) = mirrorCell (row - 1, col + 1) := by
      show _ = ((7 : Int) - (row - 1), col + 1)
      rw [Prod.mk.injEq]
      exact ⟨by ring, rfl⟩
    have hcL : ((7 : Int) - row + 1, col - 1) = mirrorCell (row - 1, col - 1) := by
      show _ = ((7 : Int) - (row - 1), col - 1)
      rw [Prod.mk.injEq]
      exact ⟨by ring, rfl⟩
    have hc4 : ((3 : Int), col) = mirrorCell (4, col) := by
      show _ = ((7 : Int) - 4, col)
      rw [Prod.mk.injEq]
      exact ⟨by norm_num, rfl⟩
    have hdec : (decide ((7 - row : Int) = 1)) = (decide (row = 6)) :=
      decide_eq_decide.mpr (by omega)
    rw [hm, ho, hc0, hcR, hcL, hc4, hdec, ve_mirror, hit_mirror, hit_mirror, ve_mirror,
      List.map_append, List.map_append]
    congr 1
    · congr 1
      · by_cases h1 : b.cell_is_valid_and_empty (row - 1, col) = true
        · rw [if_pos h1, if_pos h1, List.map_cons]
          congr 1
          by_cases h2 : (decide (row = 6) && b.cell_is_valid_and_empty (4, col)) = true
          · rw [if_pos h2, if_pos h2]
            rfl
          · rw [if_neg h2, if_neg h2]
            rfl
        · rw [if_neg h1, if_neg h1]
          rfl
      · split <;> rfl
    · split <;> rfl
  · -- white pawn mirrors to a black pawn
    have hm : Pawn.get_reachable_cells b.mirror (!true) (mirrorCell (row, col)) =
        (if b.mirror.cell_is_valid_and_empty (7 - row - 1, col) then
          ((7 : Int) - row - 1, col) ::
            (if (7 - row : Int) = 6 && b.mirror.cell_is_valid_and_empty (4, col)
              then [((4 : Int), col)] else [])
        else [])
        ++ (if b.mirror.piece_can_hit_on_cell (!true) (7 - row - 1, col + 1)
            then [((7 : Int) - row - 1, col + 1)] else [])
        ++ (if b.mirror.piece_can_hit_on_cell (!true) (7 - row - 1, col - 1)
            then [((7 : Int) - row - 1, col - 1)] else []) := rfl
    have ho : Pawn.get_reachable_cells b true (row, col) =
        (if b.cell_is_valid_and_empty (row + 1, col) then
          (row + 1, col) ::
            (if row = 1 && b.cell_is_valid_and_empty (3, col) then [((3 : Int), col)] else [])
        else [])
        ++ (if b.piece_can_hit_on_cell true (row + 1, col + 1) then [(row + 1, col + 1)]
            else [])
        ++ (if b.piece_can_hit_on_cell true (row + 1, col - 1) then [(row + 1, col - 1)]
            else []) := rfl
    have hc0 : ((7 : Int) - row - 1, col) = mirrorCell (row + 1, col) := by
      show _ = ((7 : Int) - (row + 1), col)
      rw [Prod.mk.injEq]
      exact ⟨by ring, rfl⟩
    have hcR : ((7 : Int) - row - 1, col + 1) = mirrorCell (row + 1, col + 1) := by
      show _ = ((7 : Int) - (row + 1), col + 1)
      rw [Prod.mk.injEq]
      exact ⟨by ring, rfl⟩
    have hcL : ((7 : Int) - row - 1, col - 1) = mirrorCell (row + 1, col - 1) := by
      show _ = ((7 : Int) - (row + 1), col - 1)
      rw [Prod.mk.injEq]
      exact ⟨by ring, rfl⟩
    have hc4 : ((4 : Int), col) = mirrorCell (3, col) := by
      show _ = ((7 : Int) - 3, col)
      rw [Prod.mk.injEq]
      exact ⟨by norm_num, rfl⟩
    have hdec : (decide ((7 - row : Int) = 6)) = (decide (row = 1)) :=
      decide_eq_decide.mpr (by omega)
    rw [hm, ho, hc0, hcR, hcL, hc4, hdec, ve_mirror, hit_mirror, hit_mirror, ve_mirror,
      List.map_append, List.map_append]
    congr 1
    · congr 1
      · by_cases h1 : b.cell_is_valid_and_empty (row + 1, col) = true
        · rw [if_pos h1, if_pos h1, List.map_cons]
          congr 1
          by_cases h2 : (decide (row = 1) && b.cell_is_valid_and_empty (3, col)) = true
          · rw [if_pos h2, if_pos h2]
            rfl
          · rw [if_neg h2, if_neg h2]
            rfl
        · rw [if_neg h1, if_neg h1]
          rfl
      · split <;> rfl
    · split <;> rfl

/-- Recolouring an occupant does not change its threat value in the
evaluation loop (the loop inspects only the occupant's class). -/
theorem enemy_base_pts_recolor (o : Option Pc) :
    enemy_base_pts (o.map fun q => ⟨!q.white, q.kind⟩) = enemy_base_pts o := by
  cases o with
  | none => rfl
  | some q =>
    obtain ⟨qw, qk⟩ := q
    cases qk <;> rfl

/-- The centrality cascade is symmetric under the vertical mirror. -/
theorem position_factor_mirror (bk : Bool) (r c : Int) :
    position_factor bk (7 - r) c = position_factor bk r c := by
  rw [position_factor, position_factor]
  cases bk
  · simp only [Bool.false_eq_true, if_false]
    split_ifs <;> first | rfl | omega
  · rfl

/-- Mirroring the whole game state turns each piece's reachable list into
(a permutation of) the mirror image of its original reachable list. -/
theorem reachable_mirror_perm (b : BoardSt) (self : PieceId) (og : Cell)
    (hpos : b.pos self = some og) (rc : List Cell)
    (hrc : Piece.get_reachable_cells b self = some rc) :
    ∃ rc', Piece.get_reachable_cells b.mirror self = some rc'
      ∧ List.Perm rc' (rc.map mirrorCell) := by
  have hpos' : b.mirror.pos self = some (mirrorCell og) := by
    show (b.pos self).map mirrorCell = _
    rw [hpos, Option.map_some']
  rw [Piece.get_reachable_cells, hpos] at hrc
  rw [Piece.get_reachable_cells, hpos']
  have hkind : (b.mirror.info self).kind = (b.info self).kind := rfl
  have hw : (b.mirror.info self).white = !(b.info self).white := rfl
  cases hk : (b.info self).kind <;> rw [hk] at hrc <;> rw [hkind, hk]
  case pawn =>
    obtain rfl := Option.some.inj hrc
    refine ⟨_, rfl, ?_⟩
    rw [hw]
    obtain ⟨r, c⟩ := og
    rw [pawn_mirror b (b.info self).white r c]
  case rook =>
    obtain rfl := Option.some.inj hrc
    refine ⟨_, rfl, ?_⟩
    rw [hw]
    exact rook_mirror_perm b (b.info self).white og
  case knight =>
    obtain rfl := Option.some.inj hrc
    refine ⟨_, rfl, ?_⟩
    rw [hw]
    obtain ⟨r, c⟩ := og
    exact knight_mirror_perm b (b.info self).white r c
  case bishop =>
    obtain rfl := Option.some.inj hrc
    refine ⟨_, rfl, ?_⟩
    rw [hw]
    exact bishop_mirror_perm b (b.info self).white og
  case queen =>
    obtain rfl := Option.some.inj hrc
    refine ⟨_, rfl, ?_⟩
    rw [hw]
    exact queen_mirror_perm b (b.info self).white og
  case king =>
    obtain rfl := Option.some.inj hrc
    refine ⟨_, rfl, ?_⟩
    rw [hw]
    exact king_mirror_perm b (b.info self).white og
  case other => exact Option.noConfusion hrc

/-- Scenario A's board is consistent: each occupied cell is the tracked
position of its occupant. -/
theorem boardA_consistent : boardA.Consistent := by
  intro x q h
  by_cases h0 : x = ((0 : Int), (0 : Int))
  · subst h0
    rw [show boardA.occ ((0 : Int), (0 : Int)) = some 0 from by decide] at h
    obtain rfl := Option.some.inj h
    decide
  · by_cases h5 : x = ((0 : Int), (5 : Int))
    · subst h5
      rw [show boardA.occ ((0 : Int), (5 : Int)) = some 1 from by decide] at h
      obtain rfl := Option.some.inj h
      decide
    · have hnone : boardA.occ x = none := by
        show (if x = ((0 : Int), (0 : Int)) then some 0
          else if x = ((0 : Int), (5 : Int)) then some 1 else none) = none
        rw [if_neg h0, if_neg h5]
      rw [hnone] at h
      exact Option.noConfusion h

/-- **C1.** For every piece on a consistent board, each loop iteration of
`get_valid_cells` restores the board — occupancy and every tracked
position — exactly, whatever the candidate cell and the check outcome;
consequently the whole call returns the board state bit-for-bit equal to
the input state. -/
theorem C1_board_restored (chk : BoardSt → Bool → Bool) (b : BoardSt) (self : PieceId)
    (og : Cell) (hC : b.Consistent) (hpos : b.pos self = some og)
    (hocc : b.occ og = some self) :
    (∀ c : Cell,
      ((b.set_cell c (some self)).set_cell og (some self)).set_cell c (b.occ c) = b)
    ∧ ((b.info self).kind ≠ .other →
        (Piece.get_valid_cells chk b self).map Prod.snd = some b) := by
  constructor
  · intro c
    exact restore_step b self og c hC hpos hocc
  · intro hk
    have hrc : ∃ rc, Piece.get_reachable_cells b self = some rc := by
      rw [Piece.get_reachable_cells, hpos]
      cases hkk : (b.info self).kind
      case other => exact absurd hkk hk
      all_goals exact ⟨_, rfl⟩
    obtain ⟨rc, hrc⟩ := hrc
    simp only [Piece.get_valid_cells, hpos, hrc]
    rw [validLoop_spec chk self (b.info self).white og b hC hpos hocc rc]
    rfl

/-- Witness for C1: Scenario A's rook, simulated on the pawn's cell and
restored; the full call leaves the board equal to `boardA`. -/
theorem C1_board_restored_witness :
    (((boardA.set_cell ((0 : Int), (1 : Int)) (some 0)).set_cell ((0 : Int), (0 : Int))
        (some 0)).set_cell ((0 : Int), (1 : Int)) (boardA.occ ((0 : Int), (1 : Int)))
      = boardA)
    ∧ (Piece.get_valid_cells chkF boardA 0).map Prod.snd = some boardA :=
  ⟨(C1_board_restored chkF boardA 0 (0, 0) boardA_consistent (by decide) (by decide)).1 (0, 1),
   (C1_board_restored chkF boardA 0 (0, 0) boardA_consistent (by decide) (by decide)).2
    (by decide)⟩

theorem valid_cells_eq (chk : BoardSt → Bool → Bool) (b : BoardSt) (self : PieceId)
    (og : Cell) (rc : List Cell) (hC : b.Consistent) (hpos : b.pos self = some og)
    (hocc : b.occ og = some self)
    (hrc : Piece.get_reachable_cells b self = some rc) :
    Piece.get_valid_cells chk b self =
      some (rc.filter (fun c => !(chk (b.set_cell c (some self)) (b.info self).white)), b) := by
  simp only [Piece.get_valid_cells, hpos, hrc]
  rw [validLoop_spec chk self (b.info self).white og b hC hpos hocc rc]

/-- **C2.** For every piece on a consistent board, `get_valid_cells`
returns exactly the cells of `get_reachable_cells` for which placing the
piece there leaves its own king out of check (as reported by the check
oracle on the simulated board), in the same enumeration order — i.e. the
filter of the reachable list — together with the restored board. -/
theorem C2_valid_is_filter (chk : BoardSt → Bool → Bool) (b : BoardSt) (self : PieceId)
    (og : Cell) (rc : List Cell) (hC : b.Consistent) (hpos : b.pos self = some og)
    (hocc : b.occ og = some self)
    (hrc : Piece.get_reachable_cells b self = some rc) :
    Piece.get_valid_cells chk b self =
      some (rc.filter (fun c => !(chk (b.set_cell c (some self)) (b.info self).white)), b) :=
  valid_cells_eq chk b self og rc hC hpos hocc hrc

/-- Witness for C2: Scenario A's rook with the all-clear oracle. -/
theorem C2_valid_is_filter_witness :
    Piece.get_valid_cells chkF boardA 0 =
      some ((([(1, 0), (2, 0), (3, 0), (4, 0), (5, 0), (6, 0), (7, 0),
          (0, 1), (0, 2), (0, 3), (0, 4), (0, 5)] : List Cell).filter
            (fun c => !(chkF (boardA.set_cell c (some 0)) (boardA.info 0).white)), boardA)) :=
  C2_valid_is_filter chkF boardA 0 (0, 0) _ boardA_consistent (by decide) (by decide)
    (by decide)

/-- **C3.** For each sliding piece (rook, bishop, queen) at an on-board
position and each of its directions `d`, the cell at distance `k ≥ 1`
along `d` is reachable iff it is on-board, every strictly closer cell of
the ray is on-board and empty, and the cell itself is empty or holds an
enemy: rays include every empty cell up to the first occupied one,
include that cell iff it holds an enemy, and never go past it (nor past
the board edge or a friendly piece). -/
theorem C3_slider_rays (b : BoardSt) (w : Bool) (p : Cell) (hp : onBoard p = true)
    (d : Cell) (k : Nat) (hk : 1 ≤ k) :
    (d ∈ rookDirs → (cellAt p d k ∈ Rook.get_reachable_cells b w p ↔ rayCond b w p d k))
    ∧ (d ∈ bishopDirs → (cellAt p d k ∈ Bishop.get_reachable_cells b w p ↔ rayCond b w p d k))
    ∧ (d ∈ queenDirs → (cellAt p d k ∈ Queen.get_reachable_cells b w p ↔ rayCond b w p d k)) := by
  refine ⟨fun hd => ?_, fun hd => ?_, fun hd => ?_⟩
  · rw [Rook_eq_slide]
    exact mem_slide_iff hp hk rook_sub_queen (by decide) hd
  · rw [Bishop_eq_slide]
    exact mem_slide_iff hp hk bishop_sub_queen (by decide) hd
  · rw [Queen_eq_slide]
    exact mem_slide_iff hp hk (fun x hx => hx) (by decide) hd

/-- Witness for C3: Scenario A's white rook at `(0,0)`, right direction,
distance 5 — the black pawn's cell. -/
theorem C3_slider_rays_witness :
    (((0 : Int), (1 : Int)) ∈ rookDirs →
      (cellAt (0, 0) (0, 1) 5 ∈ Rook.get_reachable_cells boardA true (0, 0) ↔
        rayCond boardA true (0, 0) (0, 1) 5))
    ∧ (((0 : Int), (1 : Int)) ∈ bishopDirs →
      (cellAt (0, 0) (0, 1) 5 ∈ Bishop.get_reachable_cells boardA true (0, 0) ↔
        rayCond boardA true (0, 0) (0, 1) 5))
    ∧ (((0 : Int), (1 : Int)) ∈ queenDirs →
      (cellAt (0, 0) (0, 1) 5 ∈ Queen.get_reachable_cells boardA true (0, 0) ↔
        rayCond boardA true (0, 0) (0, 1) 5)) :=
  C3_slider_rays boardA true (0, 0) (by decide) (0, 1) 5 (by decide)

/-- **C4.** For every pawn and every board (with no occupants stored at
off-board coordinates), `get_reachable_cells` contains the one-cell
forward cell (row+1 white, row-1 black) iff it is on-board and empty, the
two-cell forward cell iff the pawn stands on its home rank (row 1 white,
row 6 black) and both the intermediate and the target cell are on-board
and empty, and a forward diagonal cell iff an enemy occupies it; no other
cell is ever included. -/
theorem C4_pawn_reachable (b : BoardSt) (row col : Int) (t : Cell)
    (hclean : ∀ x : Cell, onBoard x = false → b.occ x = none) :
    (t ∈ Pawn.get_reachable_cells b true (row, col) ↔
      (t = (row + 1, col) ∧ b.cell_is_valid_and_empty (row + 1, col) = true)
      ∨ (t = (row + 2, col) ∧ row = 1 ∧ b.cell_is_valid_and_empty (row + 1, col) = true
          ∧ b.cell_is_valid_and_empty (row + 2, col) = true)
      ∨ (t = (row + 1, col + 1) ∧ b.enemyAt true (row + 1, col + 1) = true)
      ∨ (t = (row + 1, col - 1) ∧ b.enemyAt true (row + 1, col - 1) = true))
    ∧ (t ∈ Pawn.get_reachable_cells b false (row, col) ↔
      (t = (row - 1, col) ∧ b.cell_is_valid_and_empty (row - 1, col) = true)
      ∨ (t = (row - 2, col) ∧ row = 6 ∧ b.cell_is_valid_and_empty (row - 1, col) = true
          ∧ b.cell_is_valid_and_empty (row - 2, col) = true)
      ∨ (t = (row - 1, col + 1) ∧ b.enemyAt false (row - 1, col + 1) = true)
      ∨ (t = (row - 1, col - 1) ∧ b.enemyAt false (row - 1, col - 1) = true)) := by
  constructor
  · have hunf : Pawn.get_reachable_cells b true (row, col) =
        (if b.cell_is_valid_and_empty (row + 1, col) then
          (row + 1, col) ::
            (if row = 1 && b.cell_is_valid_and_empty (3, col) then [((3 : Int), col)] else [])
        else [])
        ++ (if b.piece_can_hit_on_cell true (row + 1, col + 1) then [(row + 1, col + 1)]
            else [])
        ++ (if b.piece_can_hit_on_cell true (row + 1, col - 1) then [(row + 1, col - 1)]
            else []) := rfl
    rw [hunf]
    by_cases h1 : b.cell_is_valid_and_empty (row + 1, col) = true
    · rw [if_pos h1]
      simp only [List.mem_append, List.mem_cons, mem_ite_singleton,
        can_hit_iff_enemy hclean, Bool.and_eq_true, decide_eq_true_eq]
      constructor
      · intro h
        rcases h with h | ⟨hen, rfl⟩
        · rcases h with h | ⟨hen, rfl⟩
          · rcases h with rfl | ⟨⟨hrow, hve3⟩, rfl⟩
            · exact Or.inl ⟨rfl, h1⟩
            · refine Or.inr (Or.inl ⟨?_, hrow, h1, ?_⟩)
              · rw [Prod.mk.injEq]; omega
              · rw [show row + 2 = (3 : Int) by omega]; exact hve3
          · exact Or.inr (Or.inr (Or.inl ⟨rfl, hen⟩))
        · exact Or.inr (Or.inr (Or.inr ⟨rfl, hen⟩))
      · intro h
        rcases h with ⟨rfl, _⟩ | h | h
        · exact Or.inl (Or.inl (Or.inl rfl))
        · rcases h with ⟨rfl, hrow, _, hve2⟩
          refine Or.inl (Or.inl (Or.inr ⟨⟨hrow, ?_⟩, ?_⟩))
          · rw [show (3 : Int) = row + 2 by omega]; exact hve2
          · rw [Prod.mk.injEq]; omega
        · rcases h with ⟨rfl, hen⟩ | ⟨rfl, hen⟩
          · exact Or.inl (Or.inr ⟨hen, rfl⟩)
          · exact Or.inr ⟨hen, rfl⟩
    · rw [if_neg h1]
      simp only [List.mem_append, List.not_mem_nil, false_or, mem_ite_singleton,
        can_hit_iff_enemy hclean]
      constructor
      · intro h
        rcases h with ⟨hen, rfl⟩ | ⟨hen, rfl⟩
        · exact Or.inr (Or.inr (Or.inl ⟨rfl, hen⟩))
        · exact Or.inr (Or.inr (Or.inr ⟨rfl, hen⟩))
      · intro h
        rcases h with ⟨rfl, hve⟩ | h | h
        · exact absurd hve h1
        · rcases h with ⟨rfl, _, hve, _⟩
          exact absurd hve h1
        · rcases h with ⟨rfl, hen⟩ | ⟨rfl, hen⟩
          · exact Or.inl ⟨hen, rfl⟩
          · exact Or.inr ⟨hen, rfl⟩
  · have hunf : Pawn.get_reachable_cells b false (row, col) =
        (if b.cell_is_valid_and_empty (row - 1, col) then
          (row - 1, col) ::
            (if row = 6 && b.cell_is_valid_and_empty (4, col) then [((4 : Int), col)] else [])
        else [])
        ++ (if b.piece_can_hit_on_cell false (row - 1, col + 1) then [(row - 1, col + 1)]
            else [])
        ++ (if b.piece_can_hit_on_cell false (row - 1, col - 1) then [(row - 1, col - 1)]
            else []) := rfl
    rw [hunf]
    by_cases h1 : b.cell_is_valid_and_empty (row - 1, col) = true
    · rw [if_pos h1]
      simp only [List.mem_append, List.mem_cons, mem_ite_singleton,
        can_hit_iff_enemy hclean, Bool.and_eq_true, decide_eq_true_eq]
      constructor
      · intro h
        rcases h with h | ⟨hen, rfl⟩
        · rcases h with h | ⟨hen, rfl⟩
          · rcases h with rfl | ⟨⟨hrow, hve4⟩, rfl⟩
            · exact Or.inl ⟨rfl, h1⟩
            · refine Or.inr (Or.inl ⟨?_, hrow, h1, ?_⟩)
              · rw [Prod.mk.injEq]; omega
              · rw [show row - 2 = (4 : Int) by omega]; exact hve4
          · exact Or.inr (Or.inr (Or.inl ⟨rfl, hen⟩))
        · exact Or.inr (Or.inr (Or.inr ⟨rfl, hen⟩))
      · intro h
        rcases h with ⟨rfl, _⟩ | h | h
        · exact Or.inl (Or.inl (Or.inl rfl))
        · rcases h with ⟨rfl, hrow, _, hve2⟩
          refine Or.inl (Or.inl (Or.inr ⟨⟨hrow, ?_⟩, ?_⟩))
          · rw [show (4 : Int) = row - 2 by omega]; exact hve2
          · rw [Prod.mk.injEq]; omega
        · rcases h with ⟨rfl, hen⟩ | ⟨rfl, hen⟩
          · exact Or.inl (Or.inr ⟨hen, rfl⟩)
          · exact Or.inr ⟨hen, rfl⟩
    · rw [if_neg h1]
      simp only [List.mem_append, List.not_mem_nil, false_or, mem_ite_singleton,
        can_hit_iff_enemy hclean]
      constructor
      · intro h
        rcases h with ⟨hen, rfl⟩ | ⟨hen, rfl⟩
        · exact Or.inr (Or.inr (Or.inl ⟨rfl, hen⟩))
        · exact Or.inr (Or.inr (Or.inr ⟨rfl, hen⟩))
      · intro h
        rcases h with ⟨rfl, hve⟩ | h | h
        · exact absurd hve h1
        · rcases h with ⟨rfl, _, hve, _⟩
          exact absurd hve h1
        · rcases h with ⟨rfl, hen⟩ | ⟨rfl, hen⟩
          · exact Or.inl ⟨hen, rfl⟩
          · exact Or.inr ⟨hen, rfl⟩

/-- Witness for C4: a white pawn at `(1,3)` on Scenario A's board; the
double step `(3,3)` is reachable. -/
theorem C4_pawn_reachable_witness :
    ((3 : Int), (3 : Int)) ∈ Pawn.get_reachable_cells boardA true (1, 3) := by
  have hclean : ∀ x : Cell, onBoard x = false → boardA.occ x = none := by
    intro x hx
    by_cases h0 : x = ((0 : Int), (0 : Int))
    · subst h0; simp [onBoard] at hx
    · by_cases h5 : x = ((0 : Int), (5 : Int))
      · subst h5; simp [onBoard] at hx
      · show (if x = ((0 : Int), (0 : Int)) then some 0
            else if x = ((0 : Int), (5 : Int)) then some 1 else none) = none
        rw [if_neg h0, if_neg h5]
  exact (C4_pawn_reachable boardA 1 3 ((3 : Int), (3 : Int)) hclean).1.2
    (Or.inr (Or.inl ⟨by norm_num, rfl, by decide, by decide⟩))

/-- **C5.** A knight's (resp. king's) `get_reachable_cells` contains a
cell iff it is one of the eight fixed L-offsets (resp. unit offsets) from
the piece's position and the cell is on-board and empty or
enemy-occupied; occupancy of other cells never matters.  In particular a
white king at `(4,4)` on an otherwise empty board reaches exactly the 8
surrounding cells. -/
theorem C5_knight_king_reachable (b : BoardSt) (w : Bool) (p t : Cell) :
    (t ∈ Knight.get_reachable_cells b w p ↔
      (t = (p.1 - 2, p.2 + 1) ∨ t = (p.1 - 2, p.2 - 1) ∨ t = (p.1 + 2, p.2 + 1)
        ∨ t = (p.1 + 2, p.2 - 1) ∨ t = (p.1 + 1, p.2 - 2) ∨ t = (p.1 - 1, p.2 - 2)
        ∨ t = (p.1 + 1, p.2 + 2) ∨ t = (p.1 - 1, p.2 + 2))
      ∧ onBoard t = true ∧ ((b.occ t).isNone = true ∨ b.enemyAt w t = true))
    ∧ (t ∈ King.get_reachable_cells b w p ↔
      (t = (p.1 - 1, p.2 - 1) ∨ t = (p.1 - 1, p.2) ∨ t = (p.1 - 1, p.2 + 1)
        ∨ t = (p.1, p.2 - 1) ∨ t = (p.1, p.2 + 1) ∨ t = (p.1 + 1, p.2 - 1)
        ∨ t = (p.1 + 1, p.2) ∨ t = (p.1 + 1, p.2 + 1))
      ∧ onBoard t = true ∧ ((b.occ t).isNone = true ∨ b.enemyAt w t = true))
    ∧ King.get_reachable_cells (onePieceBoard true .king (4, 4)) true (4, 4) =
        [(3, 3), (3, 4), (3, 5), (4, 3), (4, 5), (5, 3), (5, 4), (5, 5)] := by
  refine ⟨?_, ?_, by decide⟩
  · constructor
    · intro h
      rw [Knight.get_reachable_cells] at h
      simp only [List.append_assoc, List.mem_append, mem_ite_singleton] at h
      rcases h with ⟨hA, rfl⟩ | ⟨hA, rfl⟩ | ⟨hA, rfl⟩ | ⟨hA, rfl⟩ | ⟨hA, rfl⟩ | ⟨hA, rfl⟩
        | ⟨hA, rfl⟩ | ⟨hA, rfl⟩ <;> rw [can_enter_iff] at hA
      · exact ⟨Or.inl rfl, hA.1, hA.2⟩
      · exact ⟨Or.inr (Or.inl rfl), hA.1, hA.2⟩
      · exact ⟨Or.inr (Or.inr (Or.inl rfl)), hA.1, hA.2⟩
      · exact ⟨Or.inr (Or.inr (Or.inr (Or.inl rfl))), hA.1, hA.2⟩
      · exact ⟨Or.inr (Or.inr (Or.inr (Or.inr (Or.inl rfl)))), hA.1, hA.2⟩
      · exact ⟨Or.inr (Or.inr (Or.inr (Or.inr (Or.inr (Or.inl rfl))))), hA.1, hA.2⟩
      · exact ⟨Or.inr (Or.inr (Or.inr (Or.inr (Or.inr (Or.inr (Or.inl rfl)))))), hA.1, hA.2⟩
      · exact ⟨Or.inr (Or.inr (Or.inr (Or.inr (Or.inr (Or.inr (Or.inr rfl)))))), hA.1, hA.2⟩
    · rintro ⟨hdisj, hob, hoc⟩
      have hA := can_enter_iff.mpr ⟨hob, hoc⟩
      rw [Knight.get_reachable_cells]
      simp only [List.append_assoc, List.mem_append, mem_ite_singleton]
      rcases hdisj with rfl | rfl | rfl | rfl | rfl | rfl | rfl | rfl
      · exact Or.inl ⟨hA, rfl⟩
      · exact Or.inr (Or.inl ⟨hA, rfl⟩)
      · exact Or.inr (Or.inr (Or.inl ⟨hA, rfl⟩))
      · exact Or.inr (Or.inr (Or.inr (Or.inl ⟨hA, rfl⟩)))
      · exact Or.inr (Or.inr (Or.inr (Or.inr (Or.inl ⟨hA, rfl⟩))))
      · exact Or.inr (Or.inr (Or.inr (Or.inr (Or.inr (Or.inl ⟨hA, rfl⟩)))))
      · exact Or.inr (Or.inr (Or.inr (Or.inr (Or.inr (Or.inr (Or.inl ⟨hA, rfl⟩))))))
      · exact Or.inr (Or.inr (Or.inr (Or.inr (Or.inr (Or.inr (Or.inr ⟨hA, rfl⟩))))))
  · constructor
    · intro h
      rw [King.get_reachable_cells, List.mem_filter] at h
      obtain ⟨hmem, hA⟩ := h
      rw [can_enter_iff] at hA
      rw [List.mem_map] at hmem
      obtain ⟨o, ho, rfl⟩ := hmem
      refine ⟨?_, hA.1, hA.2⟩
      fin_cases ho
      · exact Or.inl (by rw [Prod.mk.injEq]; omega)
      · exact Or.inr (Or.inl (by rw [Prod.mk.injEq]; omega))
      · exact Or.inr (Or.inr (Or.inl (by rw [Prod.mk.injEq]; omega)))
      · exact Or.inr (Or.inr (Or.inr (Or.inl (by rw [Prod.mk.injEq]; omega))))
      · exact Or.inr (Or.inr (Or.inr (Or.inr (Or.inl (by rw [Prod.mk.injEq]; omega)))))
      · exact Or.inr (Or.inr (Or.inr (Or.inr (Or.inr (Or.inl (by
          rw [Prod.mk.injEq]; omega))))))
      · exact Or.inr (Or.inr (Or.inr (Or.inr (Or.inr (Or.inr (Or.inl (by
          rw [Prod.mk.injEq]; omega)))))))
      · exact Or.inr (Or.inr (Or.inr (Or.inr (Or.inr (Or.inr (Or.inr (by
          rw [Prod.mk.injEq]; omega)))))))
    · rintro ⟨hdisj, hob, hoc⟩
      have hA := can_enter_iff.mpr ⟨hob, hoc⟩
      rw [King.get_reachable_cells, List.mem_filter]
      refine ⟨?_, hA⟩
      rw [List.mem_map]
      rcases hdisj with rfl | rfl | rfl | rfl | rfl | rfl | rfl | rfl
      · exact ⟨(-1, -1), by simp [kingOffsets], by rw [Prod.mk.injEq]; omega⟩
      · exact ⟨(-1, 0), by simp [kingOffsets], by rw [Prod.mk.injEq]; omega⟩
      · exact ⟨(-1, 1), by simp [kingOffsets], by rw [Prod.mk.injEq]; omega⟩
      · exact ⟨(0, -1), by simp [kingOffsets], by rw [Prod.mk.injEq]; omega⟩
      · exact ⟨(0, 1), by simp [kingOffsets], by rw [Prod.mk.injEq]; omega⟩
      · exact ⟨(1, -1), by simp [kingOffsets], by rw [Prod.mk.injEq]; omega⟩
      · exact ⟨(1, 0), by simp [kingOffsets], by rw [Prod.mk.injEq]; omega⟩
      · exact ⟨(1, 1), by simp [kingOffsets], by rw [Prod.mk.injEq]; omega⟩

/-- **C6.** In simple mode (`ai_mode = False`) `evaluate` returns exactly
the base material value of the piece's class — Pawn 1, Knight 3,
Bishop 3, Rook 5, Queen 9, King 999999 — and a piece of an unrecognised
class evaluates to 0 in either mode instead of failing. -/
theorem C6_evaluate_simple (chk : BoardSt → Bool → Bool) (b : BoardSt) (self : PieceId) :
    ((b.info self).kind = .pawn → Piece.evaluate chk b self false = some 1)
    ∧ ((b.info self).kind = .knight → Piece.evaluate chk b self false = some 3)
    ∧ ((b.info self).kind = .bishop → Piece.evaluate chk b self false = some 3)
    ∧ ((b.info self).kind = .rook → Piece.evaluate chk b self false = some 5)
    ∧ ((b.info self).kind = .queen → Piece.evaluate chk b self false = some 9)
    ∧ ((b.info self).kind = .king → Piece.evaluate chk b self false = some 999999)
    ∧ ((b.info self).kind = .other → Piece.evaluate chk b self false = some 0
        ∧ Piece.evaluate chk b self true = some 0) := by
  refine ⟨?_, ?_, ?_, ?_, ?_, ?_, ?_⟩ <;> intro h <;>
    simp [Piece.evaluate, h, base_pts]

/-- Witness for C6: an isolated queen evaluates to exactly 9 in simple
mode. -/
theorem C6_evaluate_simple_witness :
    Piece.evaluate chkF (onePieceBoard true .queen (3, 3)) 0 false = some 9 :=
  (C6_evaluate_simple chkF (onePieceBoard true .queen (3, 3)) 0).2.2.2.2.1 rfl

/-- **C9.** Querying moves for a piece whose position is unset never
yields a normally returned value: both `get_reachable_cells` and
`get_valid_cells` unpack `self.cell` unconditionally, so the call fails
(modelled by `none`). -/
theorem C9_unset_position (chk : BoardSt → Bool → Bool) (b : BoardSt) (self : PieceId)
    (h : b.pos self = none) :
    Piece.get_reachable_cells b self = none ∧ Piece.get_valid_cells chk b self = none := by
  constructor
  · rw [Piece.get_reachable_cells, h]
  · rw [Piece.get_valid_cells, h]

/-- Witness for C9: a rook that was never placed on the board. -/
theorem C9_unset_position_witness :
    Piece.get_reachable_cells (unplacedBoard .rook) 0 = none
      ∧ Piece.get_valid_cells chkF (unplacedBoard .rook) 0 = none :=
  C9_unset_position chkF (unplacedBoard .rook) 0 rfl

/-- A cell a piece can enter is on-board and empty, or hittable. -/
theorem can_enter_imp {b : BoardSt} {w : Bool} {c : Cell}
    (h : b.piece_can_enter_cell w c = true) :
    b.cell_is_valid_and_empty c = true ∨ b.piece_can_hit_on_cell w c = true := by
  rw [can_enter_iff] at h
  obtain ⟨hob, hoc⟩ := h
  rcases hoc with h' | h'
  · exact Or.inl (bandI hob h')
  · exact Or.inr (bandI hob h')

theorem knight_member_pred {b : BoardSt} {w : Bool} {p c : Cell}
    (h : c ∈ Knight.get_reachable_cells b w p) : b.piece_can_enter_cell w c = true := by
  rw [Knight.get_reachable_cells] at h
  simp only [List.append_assoc, List.mem_append, mem_ite_singleton] at h
  rcases h with ⟨hA, rfl⟩ | ⟨hA, rfl⟩ | ⟨hA, rfl⟩ | ⟨hA, rfl⟩ | ⟨hA, rfl⟩ | ⟨hA, rfl⟩
    | ⟨hA, rfl⟩ | ⟨hA, rfl⟩ <;> exact hA

theorem pawn_member_pred {b : BoardSt} {w : Bool} {row col : Int} {c : Cell}
    (h : c ∈ Pawn.get_reachable_cells b w (row, col)) :
    b.cell_is_valid_and_empty c = true ∨ b.piece_can_hit_on_cell w c = true := by
  cases w
  · replace h : c ∈
        (if b.cell_is_valid_and_empty (row - 1, col) then
          (row - 1, col) ::
            (if row = 6 && b.cell_is_valid_and_empty (4, col) then [((4 : Int), col)] else [])
        else [])
        ++ (if b.piece_can_hit_on_cell false (row - 1, col + 1) then [(row - 1, col + 1)]
            else [])
        ++ (if b.piece_can_hit_on_cell false (row - 1, col - 1) then [(row - 1, col - 1)]
            else []) := h
    rcases List.mem_append.mp h with h1 | hL
    · rcases List.mem_append.mp h1 with h2 | hR
      · by_cases hve : b.cell_is_valid_and_empty (row - 1, col) = true
        · rw [if_pos hve] at h2
          rcases List.mem_cons.mp h2 with rfl | h3
          · exact Or.inl hve
          · rw [mem_ite_singleton] at h3
            obtain ⟨hcond, rfl⟩ := h3
            exact Or.inl (bandR hcond)
        · rw [if_neg hve] at h2
          exact absurd h2 (List.not_mem_nil c)
      · rw [mem_ite_singleton] at hR
        obtain ⟨hhit, rfl⟩ := hR
        exact Or.inr hhit
    · rw [mem_ite_singleton] at hL
      obtain ⟨hhit, rfl⟩ := hL
      exact Or.inr hhit
  · replace h : c ∈
        (if b.cell_is_valid_and_empty (row + 1, col) then
          (row + 1, col) ::
            (if row = 1 && b.cell_is_valid_and_empty (3, col) then [((3 : Int), col)] else [])
        else [])
        ++ (if b.piece_can_hit_on_cell true (row + 1, col + 1) then [(row + 1, col + 1)]
            else [])
        ++ (if b.piece_can_hit_on_cell true (row + 1, col - 1) then [(row + 1, col - 1)]
            else []) := h
    rcases List.mem_append.mp h with h1 | hL
    · rcases List.mem_append.mp h1 with h2 | hR
      · by_cases hve : b.cell_is_valid_and_empty (row + 1, col) = true
        · rw [if_pos hve] at h2
          rcases List.mem_cons.mp h2 with rfl | h3
          · exact Or.inl hve
          · rw [mem_ite_singleton] at h3
            obtain ⟨hcond, rfl⟩ := h3
            exact Or.inl (bandR hcond)
        · rw [if_neg hve] at h2
          exact absurd h2 (List.not_mem_nil c)
      · rw [mem_ite_singleton] at hR
        obtain ⟨hhit, rfl⟩ := hR
        exact Or.inr hhit
    · rw [mem_ite_singleton] at hL
      obtain ⟨hhit, rfl⟩ := hL
      exact Or.inr hhit

theorem slide_member_pred {b : BoardSt} {w : Bool} {p : Cell} {dirs : List Cell} {c : Cell}
    (h : c ∈ slideReach b w p dirs) :
    b.cell_is_valid_and_empty c = true ∨ b.piece_can_hit_on_cell w c = true := by
  obtain ⟨d, hd, hm⟩ := mem_slide_exists h
  obtain ⟨l₁, l₂, -, -, hlast⟩ := mem_rayWalk_iff.mp hm
  exact hlast

/-- Every cell in a reachable list is on-board and empty, or hittable
(so an occupied reachable cell always holds an enemy). -/
theorem reachable_member_pred (b : BoardSt) (self : PieceId) (og : Cell) (rc : List Cell)
    (hpos : b.pos self = some og) (hrc : Piece.get_reachable_cells b self = some rc) :
    ∀ c ∈ rc, b.cell_is_valid_and_empty c = true
      ∨ b.piece_can_hit_on_cell (b.info self).white c = true := by
  intro c hc
  rw [Piece.get_reachable_cells, hpos] at hrc
  cases hk : (b.info self).kind <;> rw [hk] at hrc
  case pawn =>
    obtain rfl := Option.some.inj hrc
    obtain ⟨row, col⟩ := og
    exact pawn_member_pred hc
  case rook =>
    obtain rfl := Option.some.inj hrc
    rw [Rook_eq_slide] at hc
    exact slide_member_pred hc
  case knight =>
    obtain rfl := Option.some.inj hrc
    exact can_enter_imp (knight_member_pred hc)
  case bishop =>
    obtain rfl := Option.some.inj hrc
    rw [Bishop_eq_slide] at hc
    exact slide_member_pred hc
  case queen =>
    obtain rfl := Option.some.inj hrc
    rw [Queen_eq_slide] at hc
    exact slide_member_pred hc
  case king =>
    obtain rfl := Option.some.inj hrc
    rw [King.get_reachable_cells, List.mem_filter] at hc
    exact can_enter_imp hc.2
  case other => exact Option.noConfusion hrc

/-- An occupied reachable cell holds an enemy of the moving piece. -/
theorem reachable_occ_enemy (b : BoardSt) (self : PieceId) (og : Cell) (rc : List Cell)
    (hpos : b.pos self = some og) (hrc : Piece.get_reachable_cells b self = some rc) :
    ∀ c ∈ rc, ∀ q, b.pcAt c = some q → q.white ≠ (b.info self).white := by
  intro c hc q hq
  rcases reachable_member_pred b self og rc hpos hrc c hc with h | h
  · have hn : b.occ c = none := Option.isNone_iff_eq_none.mp (bandR h)
    rw [BoardSt.pcAt, hn] at hq
    exact Option.noConfusion hq
  · have hen := bandR h
    simp only [BoardSt.enemyAt, hq] at hen
    simpa [bne_iff_ne] using hen

theorem tenth_eq (q : Pc) : enemy_base_pts (some q) / 10 = threat_value q := by
  obtain ⟨qw, qk⟩ := q
  cases qk <;> rfl

/-- The code's threat loop (adds a tenth of every occupant's value) sums
the same as the spec's formula (sum of tenth-values over enemy-occupied
cells), provided occupied cells hold enemies. -/
theorem threat_sum_eq (b : BoardSt) (w : Bool) (vc : List Cell)
    (hen : ∀ c ∈ vc, ∀ q, b.pcAt c = some q → q.white ≠ w) :
    (vc.map fun c => enemy_base_pts (b.pcAt c) / 10).sum
      = ((vc.filter fun c => b.enemyOcc w c).map
          fun c => ((b.pcAt c).map threat_value).getD 0).sum := by
  induction vc with
  | nil => rfl
  | cons c rest ih =>
    have hrest := fun x hx => hen x (List.mem_cons_of_mem _ hx)
    rw [List.map_cons, List.sum_cons, ih hrest, List.filter_cons]
    cases hq : b.pcAt c with
    | none =>
      have hf : b.enemyOcc w c = false := by
        simp [BoardSt.enemyOcc, BoardSt.enemyAt, hq]
      rw [hf]
      simp [enemy_base_pts, hq]
    | some q =>
      have hqw : q.white ≠ w := hen c (List.mem_cons_self _ _) q hq
      have ht : b.enemyOcc w c = true := by
        simp [BoardSt.enemyOcc, BoardSt.enemyAt, hq, bne_iff_ne]
        exact hqw
      rw [ht, if_pos rfl, List.map_cons, List.sum_cons, hq]
      rw [tenth_eq]
      simp

/-- **C7.** In extended mode (`ai_mode = True`) `evaluate` returns
(base material value + the sum, over every legal destination cell
occupied by an enemy piece, of one tenth of that enemy's base material
value with kings contributing 12) multiplied, for non-king pieces, by
the centrality factor of the piece's position (0.91 on rows/columns 0
or 7, 0.94 on 1 or 6, 0.97 on 2 or 5, 1.0 in the centre); kings are
exempt from the multiplier. -/
theorem C7_evaluate_extended (chk : BoardSt → Bool → Bool) (b : BoardSt) (self : PieceId)
    (og : Cell) (vc : List Cell) (b1 : BoardSt)
    (hC : b.Consistent) (hpos : b.pos self = some og) (hocc : b.occ og = some self)
    (hk : (b.info self).kind ≠ .other)
    (hvc : Piece.get_valid_cells chk b self = some (vc, b1)) :
    Piece.evaluate chk b self true =
      some ((base_pts (b.info self).kind
        + ((vc.filter fun c => b.enemyOcc (b.info self).white c).map
            fun c => ((b.pcAt c).map threat_value).getD 0).sum)
        * (if (b.info self).kind = .king then 1 else spec_centrality og.1 og.2)) := by
  have hrcex : ∃ rc, Piece.get_reachable_cells b self = some rc := by
    rw [Piece.get_reachable_cells, hpos]
    cases hkk : (b.info self).kind
    case other => exact absurd hkk hk
    all_goals exact ⟨_, rfl⟩
  obtain ⟨rc, hrc⟩ := hrcex
  have hveq := valid_cells_eq chk b self og rc hC hpos hocc hrc
  rw [hveq] at hvc
  obtain ⟨rfl, rfl⟩ := Prod.mk.injEq _ _ _ _ ▸ Option.some.inj hvc
  have hen : ∀ c ∈ rc.filter
      (fun c => !(chk (b.set_cell c (some self)) (b.info self).white)),
      ∀ q, b.pcAt c = some q → q.white ≠ (b.info self).white :=
    fun c hc => reachable_occ_enemy b self og rc hpos hrc c (List.mem_of_mem_filter hc)
  simp only [Piece.evaluate, if_neg hk, hveq, hpos, if_true]
  rw [threat_sum_eq b (b.info self).white _ hen]
  by_cases hking : (b.info self).kind = .king
  · rw [if_pos hking]
    simp [position_factor, hking]
  · rw [if_neg hking]
    have : position_factor (decide ((b.info self).kind = Kind.king)) og.1 og.2
        = spec_centrality og.1 og.2 := by
      rw [decide_eq_false hking]
      rfl
    rw [this]

/-- Witness for C7: Scenario A's rook with the all-clear oracle —
`evaluate` in extended mode returns `(5 + 9/10·…)·0.91`-style formula at
the concrete inputs. -/
theorem C7_evaluate_extended_witness :
    Piece.evaluate chkF boardA 0 true =
      some ((base_pts (boardA.info 0).kind
        + (((([(1, 0), (2, 0), (3, 0), (4, 0), (5, 0), (6, 0), (7, 0),
            (0, 1), (0, 2), (0, 3), (0, 4), (0, 5)] : List Cell).filter
              (fun c => !(chkF (boardA.set_cell c (some 0)) (boardA.info 0).white))).filter
            fun c => boardA.enemyOcc (boardA.info 0).white c).map
            fun c => ((boardA.pcAt c).map threat_value).getD 0).sum)
        * (if (boardA.info 0).kind = .king then 1
            else spec_centrality (0 : Int) (0 : Int))) :=
  C7_evaluate_extended chkF boardA 0 (0, 0) _ boardA boardA_consistent (by decide) (by decide)
    (by decide)
    (valid_cells_eq chkF boardA 0 (0, 0)
      ([(1, 0), (2, 0), (3, 0), (4, 0), (5, 0), (6, 0), (7, 0),
        (0, 1), (0, 2), (0, 3), (0, 4), (0, 5)] : List Cell)
      boardA_consistent (by decide) (by decide) (by decide))

/-- **C8.** `evaluate` is invariant under colour reflection: flipping the
piece's colour, mirroring the whole board vertically and recolouring all
other pieces yields the same score in both evaluation modes, for any
check oracle that is itself colour-symmetric.  The score depends only on
piece kind, position and board occupancy, never on the piece's own
colour value directly. -/
theorem C8_evaluate_color_symmetric (chk : BoardSt → Bool → Bool) (b : BoardSt)
    (self : PieceId) (og : Cell) (ai_mode : Bool)
    (hsym : ∀ (b' : BoardSt) (w : Bool), chk b'.mirror (!w) = chk b' w)
    (hC : b.Consistent) (hpos : b.pos self = some og) (hocc : b.occ og = some self) :
    Piece.evaluate chk b.mirror self ai_mode = Piece.evaluate chk b self ai_mode := by
  have hkind : (b.mirror.info self).kind = (b.info self).kind := rfl
  by_cases hk : (b.info self).kind = .other
  · rw [Piece.evaluate, Piece.evaluate, hkind, hk, if_pos rfl, if_pos rfl]
  · cases ai_mode
    · rw [Piece.evaluate, Piece.evaluate, hkind, if_neg hk, if_neg hk]
      rfl
    · have hpos' : b.mirror.pos self = some (mirrorCell og) := by
        show (b.pos self).map mirrorCell = _
        rw [hpos, Option.map_some']
      have hocc' : b.mirror.occ (mirrorCell og) = some self := by
        rw [occ_mirror_invol]
        exact hocc
      have hC' := mirror_consistent hC
      obtain ⟨rc, hrc⟩ : ∃ rc, Piece.get_reachable_cells b self = some rc := by
        rw [Piece.get_reachable_cells, hpos]
        cases hkk : (b.info self).kind
        case other => exact absurd hkk hk
        all_goals exact ⟨_, rfl⟩
      obtain ⟨rc', hrc', hperm⟩ := reachable_mirror_perm b self og hpos rc hrc
      have hveq := valid_cells_eq chk b self og rc hC hpos hocc hrc
      have hveq' := valid_cells_eq chk b.mirror self (mirrorCell og) rc' hC' hpos' hocc' hrc'
      have hwm : (b.mirror.info self).white = !(b.info self).white := rfl
      have hvperm : List.Perm
          (rc'.filter fun c =>
            !(chk (b.mirror.set_cell c (some self)) (b.mirror.info self).white))
          ((rc.filter fun c =>
            !(chk (b.set_cell c (some self)) (b.info self).white)).map mirrorCell) := by
        refine (List.Perm.filter _ hperm).trans ?_
        rw [List.filter_map]
        have hfun : ((fun c =>
            !(chk (b.mirror.set_cell c (some self)) (b.mirror.info self).white)) ∘ mirrorCell)
            = (fun c => !(chk (b.set_cell c (some self)) (b.info self).white)) := by
          funext c
          show (!(chk (b.mirror.set_cell (mirrorCell c) (some self))
            (b.mirror.info self).white)) = _
          rw [hwm, set_cell_mirror, hsym]
        rw [hfun]
      have hsum : ((rc'.filter fun c =>
            !(chk (b.mirror.set_cell c (some self)) (b.mirror.info self).white)).map
              fun c => enemy_base_pts (b.mirror.pcAt c) / 10).sum
          = ((rc.filter fun c =>
            !(chk (b.set_cell c (some self)) (b.info self).white)).map
              fun c => enemy_base_pts (b.pcAt c) / 10).sum := by
        rw [(hvperm.map fun c => enemy_base_pts (b.mirror.pcAt c) / 10).sum_eq,
          List.map_map]
        have hfun2 : ((fun c => enemy_base_pts (b.mirror.pcAt c) / 10) ∘ mirrorCell)
            = fun c => enemy_base_pts (b.pcAt c) / 10 := by
          funext c
          show enemy_base_pts (b.mirror.pcAt (mirrorCell c)) / 10 = _
          rw [pcAt_mirror, enemy_base_pts_recolor]
        rw [hfun2]
      rw [Piece.evaluate, Piece.evaluate, hkind, if_neg hk, if_neg hk]
      simp only [hveq, hveq', hpos, hpos']
      rw [hsum]
      rw [show (mirrorCell og).1 = 7 - og.1 from rfl, show (mirrorCell og).2 = og.2 from rfl,
        position_factor_mirror]

/-- Witness for C8: Scenario A's position, mirrored, evaluates the rook
to the same extended-mode score. -/
theorem C8_evaluate_color_symmetric_witness :
    Piece.evaluate chkF boardA.mirror 0 true = Piece.evaluate chkF boardA 0 true :=
  C8_evaluate_color_symmetric chkF boardA 0 (0, 0) true (fun _ _ => rfl) boardA_consistent
    (by decide) (by decide)

/-- **C10.** For every piece of any of the six kinds, the list returned
by `get_reachable_cells` never contains the piece's own current cell and
never contains the same cell twice. -/
theorem C10_reachable_nodup (b : BoardSt) (self : PieceId) (p : Cell) (l : List Cell)
    (hpos : b.pos self = some p) (hrc : Piece.get_reachable_cells b self = some l) :
    p ∉ l ∧ l.Nodup := by
  rw [Piece.get_reachable_cells, hpos] at hrc
  cases hk : (b.info self).kind <;> rw [hk] at hrc
  case pawn =>
    obtain rfl := Option.some.inj hrc
    obtain ⟨row, col⟩ := p
    exact pawn_nodup_own b _ row col
  case rook =>
    obtain rfl := Option.some.inj hrc
    rw [Rook_eq_slide]
    exact ⟨self_not_mem_slide rook_sub_queen, slideReach_nodup rook_sub_queen (by decide)⟩
  case knight =>
    obtain rfl := Option.some.inj hrc
    obtain ⟨row, col⟩ := p
    exact knight_nodup_own b _ row col
  case bishop =>
    obtain rfl := Option.some.inj hrc
    rw [Bishop_eq_slide]
    exact ⟨self_not_mem_slide bishop_sub_queen, slideReach_nodup bishop_sub_queen (by decide)⟩
  case queen =>
    obtain rfl := Option.some.inj hrc
    rw [Queen_eq_slide]
    exact ⟨self_not_mem_slide (fun x hx => hx), slideReach_nodup (fun x hx => hx) (by decide)⟩
  case king =>
    obtain rfl := Option.some.inj hrc
    exact king_nodup_own b _ p
  case other => exact Option.noConfusion hrc

/-- Witness for C10: Scenario A's rook — its own cell `(0,0)` is not
among its 12 reachable cells and they are pairwise distinct. -/
theorem C10_reachable_nodup_witness :
    ((0 : Int), (0 : Int)) ∉
        ([(1, 0), (2, 0), (3, 0), (4, 0), (5, 0), (6, 0), (7, 0),
          (0, 1), (0, 2), (0, 3), (0, 4), (0, 5)] : List Cell)
      ∧ ([(1, 0), (2, 0), (3, 0), (4, 0), (5, 0), (6, 0), (7, 0),
          (0, 1), (0, 2), (0, 3), (0, 4), (0, 5)] : List Cell).Nodup :=
  C10_reachable_nodup boardA 0 (0, 0) _ (by decide) (by decide)

end Chess
